import Mathlib

/-!
Verification of the scalar reverse-mode autodiff engine in
`src/engine/value.go` and the neuron layer in `src/engine/neuron.go`
(repository `Rmehta-sudo/neural-net`).

Embedding conventions:

* The Go heap of `*Value` pointers is modelled as an arena `St := List Node`;
  a pointer is an index (`Nat`) into the arena.  Every constructor appends a
  fresh node at the end, so indices are stable and operand indices are always
  strictly smaller than the index of the node that uses them (`Wf` below).
* Go `float64` is modelled by `ℚ` (exact arithmetic); all concrete numbers in
  the claims are exactly representable, and the spec itself reasons in exact
  arithmetic.
* The backward closures installed by `Add`/`Mul`/`Pow`/`Tanh` capture only the
  operand pointers, the exponent, and the output pointer; they are modelled by
  the tag `BackKind` stored in the node, which `backwardStep` dispatches on,
  performing exactly the sequence of `+=` updates of the corresponding Go
  closure.
* `math.Tanh` is an external library function; definitions that call it take
  an arbitrary function `tanhF : ℚ → ℚ` as a parameter, so every theorem about
  them holds for any interpretation of `tanh`.
* `math.Pow` is modelled by `powf`, restricted to integer exponents (the only
  exponents that ever occur in the repository: `Pow` is called with `-1` by
  `Div`, and its backward rule uses `p - 1 = -2`).  In `ℚ`, `x ^ (-1) = x⁻¹`
  with the junk value `0⁻¹ = 0` standing in for the IEEE infinity that the
  spec explicitly leaves unhandled.
* The recursive graph traversal `createTopoNet` is embedded with an explicit
  fuel argument; `st.length` units of fuel are always sufficient for
  well-formed arenas (proved below), which models termination of the
  unbounded Go recursion.
-/

namespace NeuralNet

/-- Tag describing which backward closure a node carries.  `addB`, `mulB`,
`powB p` and `tanhB` are the four closures installed by the source operations
`Add`, `Mul`, `Pow`, `Tanh` in `src/engine/value.go`; `noneB` is the no-op
closure of `NewValue`.  `subB` and `divB` are *modelled from the spec* (§4.2
design note): they are the alternative direct backward rules for
subtract/divide that the refinement claim C5 compares against; no source
operation installs them. -/
inductive BackKind where
  | noneB
  | addB
  | mulB
  | powB (p : ℚ)
  | tanhB
  | subB
  | divB
deriving DecidableEq

/-- The `Value` struct of `src/engine/value.go`: forward data, accumulated
gradient, operand pointers (`Prev`), diagnostic operator string and label, and
the backward closure (as a `BackKind` tag). -/
structure Node where
  data  : ℚ
  grad  : ℚ
  prev  : List Nat
  op    : String
  label : String
  bwd   : BackKind
deriving DecidableEq

instance : Inhabited Node := ⟨⟨0, 0, [], "", "", BackKind.noneB⟩⟩

/-- The arena of allocated nodes; a Go pointer is an index into it. -/
abbrev St := List Node

/-- Dereference a pointer.  Out-of-range indices return the default node;
they never arise for states built through the API. -/
def getNode (st : St) (i : Nat) : Node := st.getD i default

/-- Write the gradient field of node `i` (models `x.Grad = g`). -/
def setGrad (st : St) (i : Nat) (g : ℚ) : St :=
  st.set i { getNode st i with grad := g }

/-- Accumulate into the gradient field of node `i` (models `x.Grad += g`). -/
def addGrad (st : St) (i : Nat) (g : ℚ) : St :=
  setGrad st i ((getNode st i).grad + g)

/-- Write the operator string of node `i` (models `x.Op = o`). -/
def setOp (st : St) (i : Nat) (o : String) : St :=
  st.set i { getNode st i with op := o }

/-- Write the label of node `i` (models `x.Label = l`). -/
def setLabel (st : St) (i : Nat) (l : String) : St :=
  st.set i { getNode st i with label := l }

/-- Go `math.Pow`, modelled for integer exponents (every exponent used by the
repository is an integer; `Div` uses `-1`, whose backward rule uses `-2`).
`x ^ (-1) = x⁻¹` in `ℚ` with `0⁻¹ = 0` as the junk value standing in for the
IEEE infinity the spec leaves unhandled. -/
def powf (x p : ℚ) : ℚ := x ^ p.num

/-- `NewValue` (src/engine/value.go): a fresh leaf node with the given data
and label, zero gradient, no operands and a no-op backward closure. -/
def newValue (st : St) (v : ℚ) (lab : String) : St × Nat :=
  (st ++ [{ data := v, grad := 0, prev := [], op := "", label := lab,
            bwd := BackKind.noneB }], st.length)

/-- `Add` (src/engine/value.go): `a.Add(b)` returns a fresh node with data
`a.Data + b.Data`, operands `[a, b]`, op `"+"`, and the addition backward
closure. -/
def vadd (st : St) (a b : Nat) : St × Nat :=
  (st ++ [{ data := (getNode st a).data + (getNode st b).data, grad := 0,
            prev := [a, b], op := "+", label := "",
            bwd := BackKind.addB }], st.length)

/-- `Mul` (src/engine/value.go): `a.Mul(b)` returns a fresh node with data
`a.Data * b.Data`, operands `[a, b]`, op `"*"`, and the multiplication
backward closure. -/
def vmul (st : St) (a b : Nat) : St × Nat :=
  (st ++ [{ data := (getNode st a).data * (getNode st b).data, grad := 0,
            prev := [a, b], op := "*", label := "",
            bwd := BackKind.mulB }], st.length)

/-- `Pow` (src/engine/value.go): `a.Pow(p)` returns a fresh node with data
`math.Pow(a.Data, p)`, operand `[a]`, and the power backward closure.  The
`fmt.Sprintf("**%.4f", power)` diagnostic string is abstracted to
`"**" ++ toString p` (the op string is diagnostic only per the spec). -/
def vpow (st : St) (a : Nat) (p : ℚ) : St × Nat :=
  (st ++ [{ data := powf (getNode st a).data p, grad := 0,
            prev := [a], op := "**" ++ toString p, label := "",
            bwd := BackKind.powB p }], st.length)

/-- `Tanh` (src/engine/value.go): `a.Tanh()` returns a fresh node with data
`math.Tanh(a.Data)` — here `tanhF a.Data` for an arbitrary interpretation
`tanhF` of the external library function — operand `[a]`, op `"tanh"`, and
the tanh backward closure. -/
def vtanh (tanhF : ℚ → ℚ) (st : St) (a : Nat) : St × Nat :=
  (st ++ [{ data := tanhF (getNode st a).data, grad := 0,
            prev := [a], op := "tanh", label := "",
            bwd := BackKind.tanhB }], st.length)

/-- `Sub` (src/engine/value.go): `a.Sub(b)` is `a.Add(b.Mul(NewValue(-1, "")))`
followed by relabelling: `negB.Label = "-" + b.Label`, `out.Op = "-"`,
`out.Label = ""`. -/
def vsub (st : St) (a b : Nat) : St × Nat :=
  let p1 := newValue st (-1) ""
  let p2 := vmul p1.1 b p1.2
  let st2 := setLabel p2.1 p2.2 ("-" ++ (getNode p2.1 b).label)
  let p3 := vadd st2 a p2.2
  let st3 := setOp p3.1 p3.2 "-"
  let st4 := setLabel st3 p3.2 ""
  (st4, p3.2)

/-- `Div` (src/engine/value.go): `a.Div(b)` is `a.Mul(b.Pow(-1))` followed by
relabelling: `invB.Label = "1/" + b.Label`, `out.Op = "/"`, `out.Label = ""`. -/
def vdiv (st : St) (a b : Nat) : St × Nat :=
  let p1 := vpow st b (-1)
  let st1 := setLabel p1.1 p1.2 ("1/" ++ (getNode p1.1 b).label)
  let p2 := vmul st1 a p1.2
  let st2 := setOp p2.1 p2.2 "/"
  let st3 := setLabel st2 p2.2 ""
  (st3, p2.2)

/-- Modelled from the spec (§4.2 design note): the alternative *direct*
subtraction node a reimplementer may use, with backward rule
`a.gradient += out.gradient; b.gradient -= out.gradient`.  Used only by the
refinement claim C5; the source defines subtraction by composition (`vsub`). -/
def vsubDirect (st : St) (a b : Nat) : St × Nat :=
  (st ++ [{ data := (getNode st a).data - (getNode st b).data, grad := 0,
            prev := [a, b], op := "-", label := "",
            bwd := BackKind.subB }], st.length)

/-- Modelled from the spec (§4.2 design note): the alternative *direct*
division node with the quotient backward rule
`a.gradient += out.gradient / b.value; b.gradient -= out.gradient * a.value / b.value²`.
Used only by the refinement claim C5; the source defines division by
composition (`vdiv`). -/
def vdivDirect (st : St) (a b : Nat) : St × Nat :=
  (st ++ [{ data := (getNode st a).data / (getNode st b).data, grad := 0,
            prev := [a, b], op := "/", label := "",
            bwd := BackKind.divB }], st.length)

/-- One invocation of a node's backward closure (`node.Backward()` in
`FullBackward`).  Each case performs exactly the sequence of `+=` updates of
the corresponding Go closure, reading the heap at the moment of each update.
The `subB`/`divB` cases are modelled from the spec (§4.2 design note) for the
direct-rule nodes of claim C5. -/
def backwardStep (st : St) (i : Nat) : St :=
  match (getNode st i).bwd, (getNode st i).prev with
  | BackKind.addB, [a, b] =>
      let st1 := addGrad st a (getNode st i).grad
      addGrad st1 b (getNode st1 i).grad
  | BackKind.mulB, [a, b] =>
      let st1 := addGrad st a ((getNode st b).data * (getNode st i).grad)
      addGrad st1 b ((getNode st1 a).data * (getNode st1 i).grad)
  | BackKind.powB p, [a] =>
      addGrad st a ((getNode st i).grad * p * powf (getNode st a).data (p - 1))
  | BackKind.tanhB, [a] =>
      addGrad st a ((getNode st i).grad *
        (1 - (getNode st i).data * (getNode st i).data))
  | BackKind.subB, [a, b] =>
      let st1 := addGrad st a (getNode st i).grad
      addGrad st1 b (-(getNode st1 i).grad)
  | BackKind.divB, [a, b] =>
      let st1 := addGrad st a ((getNode st i).grad / (getNode st b).data)
      addGrad st1 b (-((getNode st1 i).grad * (getNode st1 a).data /
        ((getNode st1 b).data * (getNode st1 b).data)))
  | _, _ => st

/-- The recursive DFS `buildTopo` of `createTopoNet` (src/engine/value.go),
with an explicit fuel argument bounding the recursion depth (the Go function
recurses unboundedly; `st.length` fuel is sufficient for well-formed arenas,
proved below).  The accumulator is the pair (visited set, postorder list):
an unvisited node is marked visited, its operands are traversed, and then the
node itself is appended. -/
def buildTopoFuel (st : St) : Nat → Nat → (List Nat × List Nat) → (List Nat × List Nat)
  | 0, _, acc => acc
  | Nat.succ f, i, acc =>
      if i ∈ acc.1 then acc
      else
        let acc1 := (i :: acc.1, acc.2)
        let acc2 := (getNode st i).prev.foldl (fun a c => buildTopoFuel st f c a) acc1
        (acc2.1, acc2.2 ++ [i])

/-- `reversedCopy` (src/engine/value.go): a reversed copy of the slice. -/
def reversedCopy (s : List Nat) : List Nat := s.reverse

/-- `createTopoNet` (src/engine/value.go): DFS postorder from `L`, then
reverse, so the result lists the terminal first and leaves last. -/
def createTopoNet (st : St) (L : Nat) : List Nat :=
  reversedCopy (buildTopoFuel st st.length L ([], [])).2

/-- `FullBackward` (src/engine/value.go): compute the topological order, reset
the gradient of every node in it to 0, set the terminal's gradient to 1, then
invoke each node's backward closure in that order (terminal first). -/
def fullBackward (st : St) (v : Nat) : St :=
  let topo := createTopoNet st v
  let st1 := topo.foldl (fun s n => setGrad s n 0) st
  let st2 := setGrad st1 v 1
  topo.foldl (fun s n => backwardStep s n) st2

/-- The `Neuron` struct of `src/engine/neuron.go`: weight pointers and a bias
pointer. -/
structure Neuron where
  weights : List Nat
  bias : Nat

/-- The weighted-sum loop of `Neuron.Output`
(`for i := range neur.Weights { out = out.Add(neur.Weights[i].Mul(inputs[i])) }`):
weights and inputs are consumed in lockstep; running out of inputs while
weights remain models the Go out-of-range panic on `inputs[i]` and returns
`none`. -/
def outLoop : St → Nat → List Nat → List Nat → Option (St × Nat)
  | st, acc, [], _ => some (st, acc)
  | _, _, _ :: _, [] => none
  | st, acc, w :: ws, x :: xs =>
      let p1 := vmul st w x
      let p2 := vadd p1.1 acc p1.2
      outLoop p2.1 p2.2 ws xs

/-- `Neuron.Output` (src/engine/neuron.go): starting from the bias, add
`Weights[i] * inputs[i]` for each weight, label the raw sum, apply `Tanh`,
and label the result. -/
def neuronOutput (tanhF : ℚ → ℚ) (st : St) (n : Neuron) (ins : List Nat) :
    Option (St × Nat) :=
  match outLoop st n.bias n.weights ins with
  | none => none
  | some (st1, raw) =>
      let st2 := setLabel st1 raw "neuron_raw_output"
      let p := vtanh tanhF st2 raw
      let st3 := setLabel p.1 p.2 "neuron_output"
      some (st3, p.2)

/-- Well-formedness of an arena: every operand pointer of every node points to
an earlier node.  Every state built through the API from the empty arena
satisfies this (constructors only append nodes whose operands already exist),
and it entails both validity of operand pointers and acyclicity of the
operand graph. -/
def Wf (st : St) : Prop :=
  ∀ i, i < st.length → ∀ j ∈ (getNode st i).prev, j < i

instance (st : St) : Decidable (Wf st) :=
  inferInstanceAs (Decidable (∀ i, i < st.length → ∀ j ∈ (getNode st i).prev, j < i))

/-- Reachability along operand edges, with fuel (`reachb st f i j` = node `j`
can be reached from node `i` by following `prev` pointers, in fewer than `f`
steps). -/
def reachb (st : St) : Nat → Nat → Nat → Bool
  | 0, _, _ => false
  | Nat.succ f, i, j => i = j || (getNode st i).prev.any (fun c => reachb st f c j)

/-- Node `j` is reachable from node `i` via `prev` edges.  For well-formed
arenas, `i + 1` fuel is always sufficient, since operand pointers strictly
decrease. -/
def Reachable (st : St) (i j : Nat) : Prop := reachb st (i + 1) i j = true

/-- The local derivative weights of node `i` with respect to each of its
operand slots, read off the backward rules of §4.2: `(operand, ∂i/∂operand)`
per slot.  (`subB`/`divB` are the spec-modelled direct rules of claim C5.) -/
def localWeights (st : St) (i : Nat) : List (Nat × ℚ) :=
  match (getNode st i).bwd, (getNode st i).prev with
  | BackKind.addB, [a, b] => [(a, 1), (b, 1)]
  | BackKind.mulB, [a, b] => [(a, (getNode st b).data), (b, (getNode st a).data)]
  | BackKind.powB p, [a] => [(a, p * powf (getNode st a).data (p - 1))]
  | BackKind.tanhB, [a] =>
      [(a, 1 - (getNode st i).data * (getNode st i).data)]
  | BackKind.subB, [a, b] => [(a, 1), (b, -1)]
  | BackKind.divB, [a, b] =>
      [(a, 1 / (getNode st b).data),
       (b, -((getNode st a).data / ((getNode st b).data * (getNode st b).data)))]
  | _, _ => []

/-- Total local weight of the edge from consumer `i` into operand `j`
(summed over slots, since an operand may occupy both slots, e.g. `x * x`). -/
def inW (st : St) (i j : Nat) : ℚ :=
  ((localWeights st i).map (fun cw => if cw.1 = j then cw.2 else 0)).sum

/-- The mathematical partial derivative `∂i/∂j` of the graph: the sum over
all `prev`-paths from `i` to `j` of the products of local derivative weights
along the path, written as the standard first-edge recurrence, with fuel. -/
def derivFuel (st : St) : Nat → Nat → Nat → ℚ
  | 0, _, _ => 0
  | Nat.succ f, i, j =>
      if i = j then 1
      else ((localWeights st i).map (fun cw => cw.2 * derivFuel st f cw.1 j)).sum

/-- `∂i/∂j`, the path-summed partial derivative of node `i` with respect to
node `j`.  For well-formed arenas `i + 1` fuel is always sufficient. -/
def pathDeriv (st : St) (i j : Nat) : ℚ := derivFuel st (i + 1) i j

instance (st : St) (i j : Nat) : Decidable (Reachable st i j) :=
  inferInstanceAs (Decidable (reachb st (i + 1) i j = true))

/-! ### Concrete graphs used by individual claims -/

/-- Claim C3 example: `a = create_leaf(3)`. -/
def exC3a : St × Nat := newValue [] 3 "a"
/-- Claim C3 example: `b = create_leaf(4)`. -/
def exC3b : St × Nat := newValue exC3a.1 4 "b"
/-- Claim C3 example: `out = multiply(a, b)`. -/
def exC3out : St × Nat := vmul exC3b.1 exC3a.2 exC3b.2
/-- Claim C3 example: the arena after `run_backward(out)`. -/
def exC3final : St := fullBackward exC3out.1 exC3out.2

/-- Claim C6 counterexample graph: `a = create_leaf(2)`. -/
def exC6a : St × Nat := newValue [] 2 "a"
/-- Claim C6 counterexample graph: `b = multiply(a, a)` (a node, as the claim
allows, but not a leaf). -/
def exC6b : St × Nat := vmul exC6a.1 exC6a.2 exC6a.2
/-- Claim C6 counterexample graph: `out = add(a, b)`. -/
def exC6out : St × Nat := vadd exC6b.1 exC6a.2 exC6b.2
/-- Claim C6 counterexample graph: the arena after `run_backward(out)`. -/
def exC6final : St := fullBackward exC6out.1 exC6out.2

/-! ### Claim C3 -/

/-- Claim C3, counterexample: with `a = create_leaf(3)`, `b = create_leaf(4)`,
`out = multiply(a, b)`, the claimed conjunction `out.value == 12 ∧
a.gradient == 4 ∧ b.gradient == 4` is false on the code: `b.gradient` comes
out as `a.value = 3`, not `4`. -/
theorem claimC3_counterexample :
    ¬ ((getNode exC3out.1 exC3out.2).data = 12 ∧
       (getNode exC3final exC3a.2).grad = 4 ∧
       (getNode exC3final exC3b.2).grad = 4) := by
  norm_num [exC3final, exC3out, exC3b, exC3a, fullBackward, createTopoNet,
    buildTopoFuel, reversedCopy, getNode, setGrad, addGrad, backwardStep,
    vmul, newValue]

/-- Claim C3, amended: for leaves `a = create_leaf(3)` and `b = create_leaf(4)`
with `out = multiply(a, b)`: `out.value == 12`, and after `run_backward(out)`,
`a.gradient == 4` and `b.gradient == 3` (the spec's own general rule
`b.gradient == a.value` applied to `a.value = 3`). -/
theorem claimC3_amended :
    (getNode exC3out.1 exC3out.2).data = 12 ∧
    (getNode exC3final exC3a.2).grad = 4 ∧
    (getNode exC3final exC3b.2).grad = 3 := by
  norm_num [exC3final, exC3out, exC3b, exC3a, fullBackward, createTopoNet,
    buildTopoFuel, reversedCopy, getNode, setGrad, addGrad, backwardStep,
    vmul, newValue]

/-! ### Claim C6, counterexample part -/

/-- Claim C6, counterexample: the claim quantifies over *any* nodes `a`, `b`.
Taking `a = create_leaf(2)` and `b = multiply(a, a)` with `out = add(a, b)`,
after `run_backward(out)` the code leaves `a.gradient = 5` (the true
`∂out/∂a = 1 + 2·a.value`), not `1`: the backward walk continues past `out`
into `b`, which accumulates into `a`. -/
theorem claimC6_counterexample :
    ¬ ((getNode exC6final exC6a.2).grad = 1 ∧
       (getNode exC6final exC6b.2).grad = 1) := by
  norm_num [exC6final, exC6out, exC6b, exC6a, fullBackward, createTopoNet,
    buildTopoFuel, reversedCopy, getNode, setGrad, addGrad, backwardStep,
    vmul, vadd, newValue]

/-! ### Basic arena lemmas -/

theorem getNode_eq (st : St) (i : Nat) : getNode st i = (st[i]?).getD default := by
  simp [getNode]

theorem getNode_oob {st : St} {i : Nat} (h : st.length ≤ i) :
    getNode st i = default := by
  simp [getNode_eq, List.getElem?_eq_none h]

theorem getNode_set_self {st : St} {i : Nat} {n : Node} (h : i < st.length) :
    getNode (st.set i n) i = n := by
  simp [getNode_eq, List.getElem?_set_self h]

theorem getNode_set_ne {st : St} {i j : Nat} {n : Node} (h : i ≠ j) :
    getNode (st.set i n) j = getNode st j := by
  simp [getNode_eq, List.getElem?_set_ne h]

theorem getNode_append_left {st ext : St} {j : Nat} (h : j < st.length) :
    getNode (st ++ ext) j = getNode st j := by
  simp [getNode_eq, List.getElem?_append_left h]

theorem getNode_append_right {st ext : St} {j : Nat} (h : st.length ≤ j) :
    getNode (st ++ ext) j = getNode ext (j - st.length) := by
  simp [getNode_eq, List.getElem?_append_right h]

theorem getNode_append_singleton (st : St) (n : Node) :
    getNode (st ++ [n]) st.length = n := by
  simp [getNode_append_right (Nat.le_refl _), getNode_eq]

theorem length_setGrad (st : St) (i : Nat) (g : ℚ) :
    (setGrad st i g).length = st.length := by
  simp [setGrad]

theorem length_addGrad (st : St) (i : Nat) (g : ℚ) :
    (addGrad st i g).length = st.length := by
  simp [addGrad, length_setGrad]

theorem getNode_setGrad_self {st : St} {i : Nat} (g : ℚ) (h : i < st.length) :
    getNode (setGrad st i g) i = { getNode st i with grad := g } := by
  simp [setGrad, getNode_set_self h]

theorem getNode_setGrad_ne {st : St} {i j : Nat} (g : ℚ) (h : i ≠ j) :
    getNode (setGrad st i g) j = getNode st j := by
  simp [setGrad, getNode_set_ne h]

theorem setGrad_oob {st : St} {i : Nat} (g : ℚ) (h : st.length ≤ i) :
    setGrad st i g = st := by
  simp [setGrad, List.set_eq_of_length_le h]

theorem getNode_addGrad_ne {st : St} {i j : Nat} (g : ℚ) (h : i ≠ j) :
    getNode (addGrad st i g) j = getNode st j := by
  unfold addGrad
  exact getNode_setGrad_ne _ h

/-- Non-gradient fields are untouched by a gradient write. -/
theorem getNode_setGrad_shape (st : St) (i j : Nat) (g : ℚ) :
    (getNode (setGrad st i g) j).data = (getNode st j).data ∧
    (getNode (setGrad st i g) j).prev = (getNode st j).prev ∧
    (getNode (setGrad st i g) j).op = (getNode st j).op ∧
    (getNode (setGrad st i g) j).label = (getNode st j).label ∧
    (getNode (setGrad st i g) j).bwd = (getNode st j).bwd := by
  by_cases hij : i = j
  · subst hij
    by_cases hlen : i < st.length
    · rw [getNode_setGrad_self g hlen]
      exact ⟨rfl, rfl, rfl, rfl, rfl⟩
    · rw [setGrad_oob g (Nat.le_of_not_lt hlen)]
      exact ⟨rfl, rfl, rfl, rfl, rfl⟩
  · rw [getNode_setGrad_ne g hij]
    exact ⟨rfl, rfl, rfl, rfl, rfl⟩

/-- In a well-formed arena, every operand pointer of every node (in or out of
range) is strictly below the node. -/
theorem wf_prev_lt {st : St} (hWf : Wf st) {i : Nat} :
    ∀ c ∈ (getNode st i).prev, c < i := by
  intro c hc
  by_cases h : i < st.length
  · exact hWf i h c hc
  · rw [getNode_oob (Nat.le_of_not_lt h)] at hc
    exact absurd hc (List.not_mem_nil c)

/-! ### States equal except possibly in gradients -/

/-- `s` and `t` have the same length and agree on every field of every node
except possibly the gradient. -/
def eqButGrad (s t : St) : Prop :=
  s.length = t.length ∧ ∀ j,
    (getNode s j).data = (getNode t j).data ∧
    (getNode s j).prev = (getNode t j).prev ∧
    (getNode s j).op = (getNode t j).op ∧
    (getNode s j).label = (getNode t j).label ∧
    (getNode s j).bwd = (getNode t j).bwd

theorem eqButGrad_refl (s : St) : eqButGrad s s := ⟨rfl, fun _ => ⟨rfl, rfl, rfl, rfl, rfl⟩⟩

theorem eqButGrad_trans {s t u : St} (h1 : eqButGrad s t) (h2 : eqButGrad t u) :
    eqButGrad s u := by
  refine ⟨h1.1.trans h2.1, fun j => ?_⟩
  obtain ⟨a1, b1, c1, d1, e1⟩ := h1.2 j
  obtain ⟨a2, b2, c2, d2, e2⟩ := h2.2 j
  exact ⟨a1.trans a2, b1.trans b2, c1.trans c2, d1.trans d2, e1.trans e2⟩

theorem eqButGrad_symm {s t : St} (h : eqButGrad s t) : eqButGrad t s := by
  refine ⟨h.1.symm, fun j => ?_⟩
  obtain ⟨a, b, c, d, e⟩ := h.2 j
  exact ⟨a.symm, b.symm, c.symm, d.symm, e.symm⟩

theorem eqButGrad_setGrad (st : St) (i : Nat) (g : ℚ) :
    eqButGrad st (setGrad st i g) := by
  refine ⟨(length_setGrad st i g).symm, fun j => ?_⟩
  obtain ⟨a, b, c, d, e⟩ := getNode_setGrad_shape st i j g
  exact ⟨a.symm, b.symm, c.symm, d.symm, e.symm⟩

theorem eqButGrad_addGrad (st : St) (i : Nat) (g : ℚ) :
    eqButGrad st (addGrad st i g) := eqButGrad_setGrad st i _

theorem eqButGrad_backwardStep (st : St) (i : Nat) :
    eqButGrad st (backwardStep st i) := by
  unfold backwardStep
  split
  case _ a b _ _ => exact eqButGrad_trans (eqButGrad_addGrad _ _ _) (eqButGrad_addGrad _ _ _)
  case _ a b _ _ => exact eqButGrad_trans (eqButGrad_addGrad _ _ _) (eqButGrad_addGrad _ _ _)
  case _ p a _ _ => exact eqButGrad_addGrad _ _ _
  case _ a _ _ => exact eqButGrad_addGrad _ _ _
  case _ a b _ _ => exact eqButGrad_trans (eqButGrad_addGrad _ _ _) (eqButGrad_addGrad _ _ _)
  case _ a b _ _ => exact eqButGrad_trans (eqButGrad_addGrad _ _ _) (eqButGrad_addGrad _ _ _)
  case _ => exact eqButGrad_refl st

theorem eqButGrad_foldl_setGrad (L : List Nat) (st : St) :
    eqButGrad st (L.foldl (fun s n => setGrad s n 0) st) := by
  induction L generalizing st with
  | nil => exact eqButGrad_refl st
  | cons x L ih =>
      exact eqButGrad_trans (eqButGrad_setGrad st x 0) (ih _)

theorem eqButGrad_foldl_backwardStep (L : List Nat) (st : St) :
    eqButGrad st (L.foldl (fun s n => backwardStep s n) st) := by
  induction L generalizing st with
  | nil => exact eqButGrad_refl st
  | cons x L ih =>
      exact eqButGrad_trans (eqButGrad_backwardStep st x) (ih _)

/-- `FullBackward` mutates only gradient fields: length, data, operands, op
string, label and backward closure of every node are preserved. -/
theorem eqButGrad_fullBackward (st : St) (v : Nat) :
    eqButGrad st (fullBackward st v) := by
  unfold fullBackward
  exact eqButGrad_trans (eqButGrad_foldl_setGrad _ _)
    (eqButGrad_trans (eqButGrad_setGrad _ _ _) (eqButGrad_foldl_backwardStep _ _))

/-! ### Gradient-update and backward-step lemmas -/

theorem grad_setGrad {st : St} {i : Nat} (g : ℚ) (hi : i < st.length) (j : Nat) :
    (getNode (setGrad st i g) j).grad = if i = j then g else (getNode st j).grad := by
  by_cases h : i = j
  · subst h
    simp [getNode_setGrad_self g hi]
  · simp [getNode_setGrad_ne g h, h]

theorem grad_addGrad {st : St} {i : Nat} (g : ℚ) (hi : i < st.length) (j : Nat) :
    (getNode (addGrad st i g) j).grad
      = (getNode st j).grad + (if i = j then g else 0) := by
  unfold addGrad
  rw [grad_setGrad _ hi]
  by_cases h : i = j
  · subst h; simp
  · simp [h]

theorem data_addGrad (st : St) (i : Nat) (g : ℚ) (j : Nat) :
    (getNode (addGrad st i g) j).data = (getNode st j).data :=
  (getNode_setGrad_shape st i j _).1

theorem localWeights_mem_prev (st : St) (i : Nat) :
    ∀ cw ∈ localWeights st i, cw.1 ∈ (getNode st i).prev := by
  intro cw hcw
  unfold localWeights at hcw
  split at hcw <;> simp_all <;> rcases hcw with h | h <;> simp [h]

theorem localWeights_eq_of {s t : St} {i : Nat}
    (hb : (getNode s i).bwd = (getNode t i).bwd)
    (hp : (getNode s i).prev = (getNode t i).prev)
    (hdi : (getNode s i).data = (getNode t i).data)
    (hdc : ∀ c ∈ (getNode s i).prev, (getNode s c).data = (getNode t c).data) :
    localWeights s i = localWeights t i := by
  unfold localWeights
  rw [← hb, ← hp]
  split
  · rfl
  · rename_i a b heqb heqp
    rw [hdc b (by rw [heqp]; simp), hdc a (by rw [heqp]; simp)]
  · rename_i p a heqb heqp
    rw [hdc a (by rw [heqp]; simp)]
  · rename_i a heqb heqp
    rw [hdi]
  · rfl
  · rename_i a b heqb heqp
    rw [hdc a (by rw [heqp]; simp), hdc b (by rw [heqp]; simp)]
  · rfl

theorem inW_eq_zero_of_not_mem {st : St} {i j : Nat}
    (h : j ∉ (getNode st i).prev) : inW st i j = 0 := by
  unfold inW
  have : ∀ cw ∈ localWeights st i, (if cw.1 = j then cw.2 else 0) = 0 := by
    intro cw hcw
    have := localWeights_mem_prev st i cw hcw
    have hne : cw.1 ≠ j := fun he => h (he ▸ this)
    simp [hne]
  rw [List.map_congr_left this]
  simp

theorem getNode_backwardStep_not_prev {st : St} {i j : Nat}
    (h : j ∉ (getNode st i).prev) :
    getNode (backwardStep st i) j = getNode st j := by
  unfold backwardStep
  split <;> try rfl
  · rename_i a b heqb heqp
    rw [heqp] at h
    simp at h
    rw [getNode_addGrad_ne _ (fun he => h.2 he.symm), getNode_addGrad_ne _ (fun he => h.1 he.symm)]
  · rename_i a b heqb heqp
    rw [heqp] at h
    simp at h
    rw [getNode_addGrad_ne _ (fun he => h.2 he.symm), getNode_addGrad_ne _ (fun he => h.1 he.symm)]
  · rename_i p a heqb heqp
    rw [heqp] at h
    simp at h
    rw [getNode_addGrad_ne _ (fun he => h he.symm)]
  · rename_i a heqb heqp
    rw [heqp] at h
    simp at h
    rw [getNode_addGrad_ne _ (fun he => h he.symm)]
  · rename_i a b heqb heqp
    rw [heqp] at h
    simp at h
    rw [getNode_addGrad_ne _ (fun he => h.2 he.symm), getNode_addGrad_ne _ (fun he => h.1 he.symm)]
  · rename_i a b heqb heqp
    rw [heqp] at h
    simp at h
    rw [getNode_addGrad_ne _ (fun he => h.2 he.symm), getNode_addGrad_ne _ (fun he => h.1 he.symm)]

theorem grad_backwardStep (st : St) (i : Nat)
    (hlt : ∀ c ∈ (getNode st i).prev, c < i)
    (hv : ∀ c ∈ (getNode st i).prev, c < st.length) (j : Nat) :
    (getNode (backwardStep st i) j).grad
      = (getNode st j).grad + inW st i j * (getNode st i).grad := by
  unfold backwardStep
  split
  · rename_i a b heqb heqp
    have hma : a ∈ (getNode st i).prev := by rw [heqp]; simp
    have hmb : b ∈ (getNode st i).prev := by rw [heqp]; simp
    have hai : a ≠ i := Nat.ne_of_lt (hlt a hma)
    have hb2 : b < (addGrad st a (getNode st i).grad).length := by
      rw [length_addGrad]; exact hv b hmb
    have hlw : localWeights st i = [(a, 1), (b, 1)] := by
      unfold localWeights; rw [heqb, heqp]
    have hw : inW st i j = (if a = j then (1 : ℚ) else 0) + (if b = j then (1 : ℚ) else 0) := by
      unfold inW; rw [hlw]; simp
    rw [grad_addGrad _ hb2, getNode_addGrad_ne _ hai, grad_addGrad _ (hv a hma), hw]
    split_ifs <;> ring
  · rename_i a b heqb heqp
    have hma : a ∈ (getNode st i).prev := by rw [heqp]; simp
    have hmb : b ∈ (getNode st i).prev := by rw [heqp]; simp
    have hai : a ≠ i := Nat.ne_of_lt (hlt a hma)
    have hb2 : b < (addGrad st a ((getNode st b).data * (getNode st i).grad)).length := by
      rw [length_addGrad]; exact hv b hmb
    have hlw : localWeights st i = [(a, (getNode st b).data), (b, (getNode st a).data)] := by
      unfold localWeights; rw [heqb, heqp]
    have hw : inW st i j = (if a = j then (getNode st b).data else 0)
        + (if b = j then (getNode st a).data else 0) := by
      unfold inW; rw [hlw]; simp
    rw [grad_addGrad _ hb2, getNode_addGrad_ne _ hai, data_addGrad, grad_addGrad _ (hv a hma), hw]
    split_ifs <;> ring
  · rename_i p a heqb heqp
    have hma : a ∈ (getNode st i).prev := by rw [heqp]; simp
    have hlw : localWeights st i = [(a, p * powf (getNode st a).data (p - 1))] := by
      unfold localWeights; rw [heqb, heqp]
    have hw : inW st i j = (if a = j then p * powf (getNode st a).data (p - 1) else 0) := by
      unfold inW; rw [hlw]; simp
    rw [grad_addGrad _ (hv a hma), hw]
    split_ifs <;> ring
  · rename_i a heqb heqp
    have hma : a ∈ (getNode st i).prev := by rw [heqp]; simp
    have hlw : localWeights st i = [(a, 1 - (getNode st i).data * (getNode st i).data)] := by
      unfold localWeights; rw [heqb, heqp]
    have hw : inW st i j
        = (if a = j then 1 - (getNode st i).data * (getNode st i).data else 0) := by
      unfold inW; rw [hlw]; simp
    rw [grad_addGrad _ (hv a hma), hw]
    split_ifs <;> ring
  · rename_i a b heqb heqp
    have hma : a ∈ (getNode st i).prev := by rw [heqp]; simp
    have hmb : b ∈ (getNode st i).prev := by rw [heqp]; simp
    have hai : a ≠ i := Nat.ne_of_lt (hlt a hma)
    have hb2 : b < (addGrad st a (getNode st i).grad).length := by
      rw [length_addGrad]; exact hv b hmb
    have hlw : localWeights st i = [(a, 1), (b, -1)] := by
      unfold localWeights; rw [heqb, heqp]
    have hw : inW st i j = (if a = j then (1 : ℚ) else 0) + (if b = j then (-1 : ℚ) else 0) := by
      unfold inW; rw [hlw]; simp
    rw [grad_addGrad _ hb2, getNode_addGrad_ne _ hai, grad_addGrad _ (hv a hma), hw]
    split_ifs <;> ring
  · rename_i a b heqb heqp
    have hma : a ∈ (getNode st i).prev := by rw [heqp]; simp
    have hmb : b ∈ (getNode st i).prev := by rw [heqp]; simp
    have hai : a ≠ i := Nat.ne_of_lt (hlt a hma)
    have hb2 : b < (addGrad st a ((getNode st i).grad / (getNode st b).data)).length := by
      rw [length_addGrad]; exact hv b hmb
    have hlw : localWeights st i
        = [(a, 1 / (getNode st b).data),
           (b, -((getNode st a).data / ((getNode st b).data * (getNode st b).data)))] := by
      unfold localWeights; rw [heqb, heqp]
    have hw : inW st i j = (if a = j then 1 / (getNode st b).data else 0)
        + (if b = j then -((getNode st a).data / ((getNode st b).data * (getNode st b).data)) else 0) := by
      unfold inW; rw [hlw]; simp
    rw [grad_addGrad _ hb2, getNode_addGrad_ne _ hai, data_addGrad, data_addGrad,
      grad_addGrad _ (hv a hma), hw]
    split_ifs <;> ring
  · rename_i x y h1 h2 h3 h4 h5 h6
    have hlw : localWeights st i = [] := by
      unfold localWeights
      split
      · rename_i a b hb2 hp2
        exact (h1 a b hb2 hp2).elim
      · rename_i a b hb2 hp2
        exact (h2 a b hb2 hp2).elim
      · rename_i p a hb2 hp2
        exact (h3 p a hb2 hp2).elim
      · rename_i a hb2 hp2
        exact (h4 a hb2 hp2).elim
      · rename_i a b hb2 hp2
        exact (h5 a b hb2 hp2).elim
      · rename_i a b hb2 hp2
        exact (h6 a b hb2 hp2).elim
      · rfl
    have hw : inW st i j = 0 := by unfold inW; rw [hlw]; simp
    rw [hw]
    ring

/-! ### List congruence helpers -/

theorem foldl_fun_congr {α β : Type} {f g : β → α → β} :
    ∀ (l : List α) (b : β), (∀ a ∈ l, ∀ x, f x a = g x a) → l.foldl f b = l.foldl g b := by
  intro l
  induction l with
  | nil => intro b _; rfl
  | cons a l ih =>
      intro b h
      simp only [List.foldl_cons]
      rw [h a (List.mem_cons_self a l)]
      exact ih _ (fun x hx y => h x (List.mem_cons_of_mem _ hx) y)

theorem any_fun_congr {α : Type} {f g : α → Bool}
    (l : List α) (h : ∀ a ∈ l, f a = g a) : l.any f = l.any g := by
  induction l with
  | nil => rfl
  | cons a l ih =>
      simp only [List.any_cons]
      rw [h a (List.mem_cons_self a l), ih (fun x hx => h x (List.mem_cons_of_mem _ hx))]

/-! ### Fuel-stability and congruence lemmas -/

theorem buildTopoFuel_fuel_congr {st : St} (hWf : Wf st) :
    ∀ i f1 f2 acc, i < f1 → i < f2 →
      buildTopoFuel st f1 i acc = buildTopoFuel st f2 i acc := by
  intro i
  induction i using Nat.strong_induction_on with
  | _ i ih =>
    intro f1 f2 acc h1 h2
    obtain ⟨a, rfl⟩ : ∃ a, f1 = a + 1 := ⟨f1 - 1, by omega⟩
    obtain ⟨b, rfl⟩ : ∃ b, f2 = b + 1 := ⟨f2 - 1, by omega⟩
    simp only [buildTopoFuel]
    by_cases hmem : i ∈ acc.1
    · simp [hmem]
    · simp only [hmem, if_false]
      have hfold : ∀ (l : List Nat), (∀ c ∈ l, c < i) → ∀ (ac : List Nat × List Nat),
          l.foldl (fun x c => buildTopoFuel st a c x) ac
            = l.foldl (fun x c => buildTopoFuel st b c x) ac := by
        intro l hl
        induction l with
        | nil => intro ac; rfl
        | cons c l ihl =>
            intro ac
            simp only [List.foldl_cons]
            have hci : c < i := hl c (List.mem_cons_self c l)
            rw [ih c hci a b ac (by omega) (by omega)]
            exact ihl (fun x hx => hl x (List.mem_cons_of_mem _ hx)) _
      rw [hfold _ (fun c hc => wf_prev_lt hWf c hc)]

theorem reachb_fuel_congr {st : St} (hWf : Wf st) :
    ∀ i j f1 f2, i < f1 → i < f2 → reachb st f1 i j = reachb st f2 i j := by
  intro i
  induction i using Nat.strong_induction_on with
  | _ i ih =>
    intro j f1 f2 h1 h2
    obtain ⟨a, rfl⟩ : ∃ a, f1 = a + 1 := ⟨f1 - 1, by omega⟩
    obtain ⟨b, rfl⟩ : ∃ b, f2 = b + 1 := ⟨f2 - 1, by omega⟩
    simp only [reachb]
    have : ∀ c ∈ (getNode st i).prev, reachb st a c j = reachb st b c j := by
      intro c hc
      have hci : c < i := wf_prev_lt hWf c hc
      exact ih c hci j a b (by omega) (by omega)
    rw [any_fun_congr _ this]

theorem reachable_refl (st : St) (i : Nat) : Reachable st i i := by
  simp [Reachable, reachb]

theorem reachable_step {st : St} (hWf : Wf st) {i c j : Nat}
    (hc : c ∈ (getNode st i).prev) (h : Reachable st c j) : Reachable st i j := by
  have hci : c < i := wf_prev_lt hWf c hc
  unfold Reachable at h ⊢
  simp only [reachb, Bool.or_eq_true, decide_eq_true_eq, List.any_eq_true]
  right
  refine ⟨c, hc, ?_⟩
  rw [reachb_fuel_congr hWf c j i (c + 1) hci (Nat.lt_succ_self c)]
  exact h

theorem reachable_elim {st : St} (hWf : Wf st) {i j : Nat} (h : Reachable st i j) :
    i = j ∨ ∃ c ∈ (getNode st i).prev, Reachable st c j := by
  unfold Reachable at h
  simp only [reachb, Bool.or_eq_true, decide_eq_true_eq, List.any_eq_true] at h
  rcases h with h | ⟨c, hc, h⟩
  · exact Or.inl h
  · right
    refine ⟨c, hc, ?_⟩
    have hci : c < i := wf_prev_lt hWf c hc
    unfold Reachable
    rw [reachb_fuel_congr hWf c j (c + 1) i (Nat.lt_succ_self c) hci]
    exact h

theorem reachable_le {st : St} (hWf : Wf st) :
    ∀ i j, Reachable st i j → j ≤ i := by
  intro i
  induction i using Nat.strong_induction_on with
  | _ i ih =>
    intro j h
    rcases reachable_elim hWf h with rfl | ⟨c, hc, h⟩
    · exact Nat.le_refl _
    · have hci : c < i := wf_prev_lt hWf c hc
      exact Nat.le_trans (ih c hci j h) (Nat.le_of_lt hci)

theorem derivFuel_fuel_congr {st : St} (hWf : Wf st) :
    ∀ i j f1 f2, i < f1 → i < f2 → derivFuel st f1 i j = derivFuel st f2 i j := by
  intro i
  induction i using Nat.strong_induction_on with
  | _ i ih =>
    intro j f1 f2 h1 h2
    obtain ⟨a, rfl⟩ : ∃ a, f1 = a + 1 := ⟨f1 - 1, by omega⟩
    obtain ⟨b, rfl⟩ : ∃ b, f2 = b + 1 := ⟨f2 - 1, by omega⟩
    simp only [derivFuel]
    by_cases hij : i = j
    · simp [hij]
    · simp only [hij, if_false]
      have : ∀ cw ∈ localWeights st i,
          cw.2 * derivFuel st a cw.1 j = cw.2 * derivFuel st b cw.1 j := by
        intro cw hcw
        have hci : cw.1 < i := wf_prev_lt hWf _ (localWeights_mem_prev st i cw hcw)
        rw [ih cw.1 hci j a b (by omega) (by omega)]
      rw [List.map_congr_left this]

theorem pathDeriv_self (st : St) (i : Nat) : pathDeriv st i i = 1 := by
  simp [pathDeriv, derivFuel]

theorem pathDeriv_eq_zero_of_not_reachable {st : St} (hWf : Wf st) :
    ∀ i j, ¬ Reachable st i j → pathDeriv st i j = 0 := by
  intro i
  induction i using Nat.strong_induction_on with
  | _ i ih =>
    intro j hr
    have hij : i ≠ j := fun he => hr (he ▸ reachable_refl st i)
    unfold pathDeriv
    simp only [derivFuel, hij, if_false]
    have : ∀ cw ∈ localWeights st i, cw.2 * derivFuel st i cw.1 j = 0 := by
      intro cw hcw
      have hmem := localWeights_mem_prev st i cw hcw
      have hci : cw.1 < i := wf_prev_lt hWf _ hmem
      have hnr : ¬ Reachable st cw.1 j := fun hrc => hr (reachable_step hWf hmem hrc)
      have hdf : derivFuel st i cw.1 j = pathDeriv st cw.1 j :=
        derivFuel_fuel_congr hWf cw.1 j i (cw.1 + 1) hci (Nat.lt_succ_self _)
      rw [hdf, ih cw.1 hci j hnr, mul_zero]
    rw [List.map_congr_left this]
    exact List.sum_eq_zero (by simp)

theorem pathDeriv_firstEdge {st : St} (hWf : Wf st) (i j : Nat) :
    pathDeriv st i j = (if i = j then 1 else 0)
      + ((localWeights st i).map (fun cw => cw.2 * pathDeriv st cw.1 j)).sum := by
  by_cases hij : i = j
  · subst hij
    rw [pathDeriv_self]
    simp only [if_pos rfl]
    have : ∀ cw ∈ localWeights st i, cw.2 * pathDeriv st cw.1 i = 0 := by
      intro cw hcw
      have hci : cw.1 < i := wf_prev_lt hWf _ (localWeights_mem_prev st i cw hcw)
      have hnr : ¬ Reachable st cw.1 i := fun hrc =>
        absurd (reachable_le hWf _ _ hrc) (by omega)
      rw [pathDeriv_eq_zero_of_not_reachable hWf _ _ hnr, mul_zero]
    have hz : ((localWeights st i).map (fun cw => cw.2 * pathDeriv st cw.1 i)).sum = 0 := by
      rw [List.map_congr_left this]
      exact List.sum_eq_zero (by simp)
    rw [hz]
    simp
  · unfold pathDeriv
    simp only [derivFuel, hij, if_false]
    have : ∀ cw ∈ localWeights st i,
        cw.2 * derivFuel st i cw.1 j = cw.2 * derivFuel st (cw.1 + 1) cw.1 j := by
      intro cw hcw
      have hci : cw.1 < i := wf_prev_lt hWf _ (localWeights_mem_prev st i cw hcw)
      rw [derivFuel_fuel_congr hWf cw.1 j i (cw.1 + 1) hci (Nat.lt_succ_self _)]
    rw [List.map_congr_left this]
    show _ = 0 + _
    rw [zero_add]
    rfl

/-! ### Postorder structure of the DFS -/

/-- Every element of a postorder list has all of its operands at strictly
earlier positions in the list. -/
def prevsBefore (st : St) (T : List Nat) : Prop :=
  ∀ p, p < T.length → ∀ c ∈ (getNode st (T.getD p 0)).prev,
    ∃ q, q < p ∧ T.getD q 0 = c

theorem getD_append_left {T D : List Nat} {p : Nat} (h : p < T.length) :
    (T ++ D).getD p 0 = T.getD p 0 := by
  simp [List.getD_eq_getElem?_getD, List.getElem?_append_left h]

theorem getD_append_sing (T : List Nat) (x : Nat) :
    (T ++ [x]).getD T.length 0 = x := by
  simp [List.getD_eq_getElem?_getD, List.getElem?_append_right (Nat.le_refl T.length)]

theorem mem_iff_getD {T : List Nat} {x : Nat} :
    x ∈ T ↔ ∃ p, p < T.length ∧ T.getD p 0 = x := by
  rw [List.mem_iff_getElem]
  constructor
  · rintro ⟨n, h, rfl⟩
    exact ⟨n, h, by simp [List.getD_eq_getElem?_getD, List.getElem?_eq_getElem h]⟩
  · rintro ⟨p, h, he⟩
    refine ⟨p, h, ?_⟩
    simp [List.getD_eq_getElem?_getD, List.getElem?_eq_getElem h] at he
    exact he

theorem prevsBefore_nil (st : St) : prevsBefore st [] := by
  intro p hp
  simp at hp

theorem prevsBefore_append {st : St} {T : List Nat} {x : Nat}
    (hT : prevsBefore st T) (hx : ∀ c ∈ (getNode st x).prev, c ∈ T) :
    prevsBefore st (T ++ [x]) := by
  intro p hp c hc
  rw [List.length_append] at hp
  by_cases h : p < T.length
  · rw [getD_append_left h] at hc
    obtain ⟨q, hq, he⟩ := hT p h c hc
    exact ⟨q, hq, by rw [getD_append_left (Nat.lt_trans hq h)]; exact he⟩
  · have hp2 : p = T.length := by simp at hp; omega
    subst hp2
    rw [getD_append_sing] at hc
    obtain ⟨q, hq, he⟩ := mem_iff_getD.mp (hx c hc)
    exact ⟨q, hq, by rw [getD_append_left hq]; exact he⟩

theorem prevsBefore_mem_closed {st : St} {T : List Nat} (h : prevsBefore st T) :
    ∀ x ∈ T, ∀ c ∈ (getNode st x).prev, c ∈ T := by
  intro x hx c hc
  obtain ⟨p, hp, he⟩ := mem_iff_getD.mp hx
  obtain ⟨q, hq, he2⟩ := h p hp c (he ▸ hc)
  exact mem_iff_getD.mpr ⟨q, Nat.lt_trans hq hp, he2⟩

theorem prevsBefore_reach_closed {st : St} (hWf : Wf st) {T : List Nat}
    (h : prevsBefore st T) :
    ∀ x, x ∈ T → ∀ j, Reachable st x j → j ∈ T := by
  intro x
  induction x using Nat.strong_induction_on with
  | _ x ih =>
    intro hx j hr
    rcases reachable_elim hWf hr with rfl | ⟨c, hc, hr2⟩
    · exact hx
    · exact ih c (wf_prev_lt hWf c hc) (prevsBefore_mem_closed h x hx c hc) j hr2

/-- The central invariant of the DFS `buildTopo`: starting from a visited set
`V` and postorder `T` satisfying the stack discipline, the traversal only
appends, keeps the postorder duplicate-free with operands before consumers,
visits `i`, adds only nodes `≤ i`, and adds only nodes reachable from `i`. -/
theorem buildTopo_go {st : St} (hWf : Wf st) :
    ∀ i f V T, i < f →
      (∀ v ∈ V, v ∈ T ∨ i < v) →
      (∀ x ∈ T, x ∈ V) →
      T.Nodup →
      prevsBefore st T →
      (∃ D, (buildTopoFuel st f i (V, T)).2 = T ++ D) ∧
      (∀ v ∈ V, v ∈ (buildTopoFuel st f i (V, T)).1) ∧
      (∀ x ∈ (buildTopoFuel st f i (V, T)).2, x ∈ (buildTopoFuel st f i (V, T)).1) ∧
      (∀ v ∈ (buildTopoFuel st f i (V, T)).1,
        v ∈ (buildTopoFuel st f i (V, T)).2 ∨ v ∈ V) ∧
      (buildTopoFuel st f i (V, T)).2.Nodup ∧
      prevsBefore st (buildTopoFuel st f i (V, T)).2 ∧
      i ∈ (buildTopoFuel st f i (V, T)).2 ∧
      (∀ x ∈ (buildTopoFuel st f i (V, T)).2, x ∈ T ∨ x ≤ i) ∧
      (∀ x ∈ (buildTopoFuel st f i (V, T)).2, x ∈ T ∨ Reachable st i x) ∧
      (i ∉ V → ∃ T3, (buildTopoFuel st f i (V, T)).2 = T3 ++ [i]) := by
  intro i
  induction i using Nat.strong_induction_on with
  | _ i ih =>
    intro f V T hf hV hTV hnd hpb
    obtain ⟨a, rfl⟩ : ∃ a, f = a + 1 := ⟨f - 1, by omega⟩
    by_cases hmem : i ∈ V
    · have hiT : i ∈ T := by
        rcases hV i hmem with h | h
        · exact h
        · omega
      simp only [buildTopoFuel, hmem, if_true]
      refine ⟨⟨[], by simp⟩, fun v hv => hv, hTV, fun v hv => Or.inr hv, hnd, hpb, hiT,
        fun x hx => Or.inl hx, fun x hx => Or.inl hx, fun hniv => (hniv trivial).elim⟩
    · -- the traversal of the children list
      have hfold : ∀ (cs : List Nat), (∀ c ∈ cs, c < i) → ∀ (V2 T2 : List Nat),
          (∀ v ∈ V2, v ∈ T2 ∨ i ≤ v) →
          (∀ x ∈ T2, x ∈ V2) →
          T2.Nodup →
          prevsBefore st T2 →
          (∃ D, (cs.foldl (fun acc c => buildTopoFuel st a c acc) (V2, T2)).2 = T2 ++ D) ∧
          (∀ v ∈ V2, v ∈ (cs.foldl (fun acc c => buildTopoFuel st a c acc) (V2, T2)).1) ∧
          (∀ x ∈ (cs.foldl (fun acc c => buildTopoFuel st a c acc) (V2, T2)).2,
            x ∈ (cs.foldl (fun acc c => buildTopoFuel st a c acc) (V2, T2)).1) ∧
          (∀ v ∈ (cs.foldl (fun acc c => buildTopoFuel st a c acc) (V2, T2)).1,
            v ∈ (cs.foldl (fun acc c => buildTopoFuel st a c acc) (V2, T2)).2 ∨ v ∈ V2) ∧
          (cs.foldl (fun acc c => buildTopoFuel st a c acc) (V2, T2)).2.Nodup ∧
          prevsBefore st (cs.foldl (fun acc c => buildTopoFuel st a c acc) (V2, T2)).2 ∧
          (∀ c ∈ cs, c ∈ (cs.foldl (fun acc c => buildTopoFuel st a c acc) (V2, T2)).2) ∧
          (∀ x ∈ (cs.foldl (fun acc c => buildTopoFuel st a c acc) (V2, T2)).2,
            x ∈ T2 ∨ x < i) ∧
          (∀ x ∈ (cs.foldl (fun acc c => buildTopoFuel st a c acc) (V2, T2)).2,
            x ∈ T2 ∨ ∃ c ∈ cs, Reachable st c x) := by
        intro cs
        induction cs with
        | nil =>
            intro _ V2 T2 hV2 hTV2 hnd2 hpb2
            exact ⟨⟨[], by simp⟩, fun v hv => hv, hTV2, fun v hv => Or.inr hv, hnd2, hpb2,
              by simp, fun x hx => Or.inl hx, fun x hx => Or.inl hx⟩
        | cons c cs ihl =>
            intro hcs V2 T2 hV2 hTV2 hnd2 hpb2
            have hci : c < i := hcs c (List.mem_cons_self c cs)
            have hca : c < a := by omega
            have hV2c : ∀ v ∈ V2, v ∈ T2 ∨ c < v := by
              intro v hv
              rcases hV2 v hv with h | h
              · exact Or.inl h
              · exact Or.inr (by omega)
            obtain ⟨⟨D1, hD1⟩, g2, g3, g4, g5, g6, g7, g8, g9, _⟩ :=
              ih c hci a V2 T2 hca hV2c hTV2 hnd2 hpb2
            simp only [List.foldl_cons]
            have hV1 : ∀ v ∈ (buildTopoFuel st a c (V2, T2)).1,
                v ∈ (buildTopoFuel st a c (V2, T2)).2 ∨ i ≤ v := by
              intro v hv
              rcases g4 v hv with h | h
              · exact Or.inl h
              · rcases hV2 v h with h2 | h2
                · exact Or.inl (by rw [hD1]; exact List.mem_append_left D1 h2)
                · exact Or.inr h2
            obtain ⟨⟨D2, hD2⟩, k2, k3, k4, k5, k6, k7, k8, k9⟩ :=
              ihl (fun x hx => hcs x (List.mem_cons_of_mem c hx))
                (buildTopoFuel st a c (V2, T2)).1 (buildTopoFuel st a c (V2, T2)).2
                hV1 g3 g5 g6
            refine ⟨⟨D1 ++ D2, by rw [hD2, hD1, List.append_assoc]⟩, ?_, k3, ?_, k5, k6, ?_, ?_, ?_⟩
            · intro v hv
              exact k2 v (g2 v hv)
            · intro v hv
              rcases k4 v hv with h | h
              · exact Or.inl h
              · rcases g4 v h with h2 | h2
                · exact Or.inl (by rw [hD2]; exact List.mem_append_left D2 h2)
                · exact Or.inr h2
            · intro x hx
              rcases List.mem_cons.mp hx with rfl | hx2
              · have : x ∈ (buildTopoFuel st a x (V2, T2)).2 := g7
                rw [hD2]
                exact List.mem_append_left D2 this
              · exact k7 x hx2
            · intro x hx
              rcases k8 x hx with h | h
              · rcases g8 x h with h2 | h2
                · exact Or.inl h2
                · exact Or.inr (by omega)
              · exact Or.inr h
            · intro x hx
              rcases k9 x hx with h | h
              · rcases g9 x h with h2 | h2
                · exact Or.inl h2
                · exact Or.inr ⟨c, List.mem_cons_self c cs, h2⟩
              · obtain ⟨y, hy, hr⟩ := h
                exact Or.inr ⟨y, List.mem_cons_of_mem c hy, hr⟩
      -- apply the fold lemma to the children of i
      have hprevlt : ∀ c ∈ (getNode st i).prev, c < i := wf_prev_lt hWf
      have hVi : ∀ v ∈ i :: V, v ∈ T ∨ i ≤ v := by
        intro v hv
        rcases List.mem_cons.mp hv with rfl | hv2
        · exact Or.inr (Nat.le_refl v)
        · rcases hV v hv2 with h | h
          · exact Or.inl h
          · exact Or.inr (Nat.le_of_lt h)
      obtain ⟨⟨D, hD⟩, m2, m3, m4, m5, m6, m7, m8, m9⟩ :=
        hfold (getNode st i).prev hprevlt (i :: V) T hVi
          (fun x hx => List.mem_cons_of_mem i (hTV x hx)) hnd hpb
      simp only [buildTopoFuel, hmem, if_false]
      have hiT2 : i ∉ (((getNode st i).prev).foldl
          (fun acc c => buildTopoFuel st a c acc) (i :: V, T)).2 := by
        intro hin
        rcases m8 i hin with h | h
        · exact hmem (hTV i h)
        · omega
      refine ⟨⟨D ++ [i], by rw [hD, List.append_assoc]⟩, ?_, ?_, ?_, ?_, ?_, ?_, ?_, ?_, ?_⟩
      · intro v hv
        exact m2 v (List.mem_cons_of_mem i hv)
      · intro x hx
        rcases List.mem_append.mp hx with h | h
        · exact m3 x h
        · rw [List.mem_singleton] at h
          exact h ▸ m2 i (List.mem_cons_self i V)
      · intro v hv
        rcases m4 v hv with h | h
        · exact Or.inl (List.mem_append_left [i] h)
        · rcases List.mem_cons.mp h with rfl | h2
          · exact Or.inl (List.mem_append_right _ (List.mem_singleton_self v))
          · exact Or.inr h2
      · exact List.Nodup.append m5 (List.nodup_singleton i)
          (fun x hx hxi => by rw [List.mem_singleton] at hxi; exact hiT2 (hxi ▸ hx))
      · exact prevsBefore_append m6 m7
      · exact List.mem_append_right _ (List.mem_singleton_self i)
      · intro x hx
        rcases List.mem_append.mp hx with h | h
        · rcases m8 x h with h2 | h2
          · exact Or.inl h2
          · exact Or.inr (Nat.le_of_lt h2)
        · rw [List.mem_singleton] at h
          exact Or.inr (Nat.le_of_eq h)
      · intro x hx
        rcases List.mem_append.mp hx with h | h
        · rcases m9 x h with h2 | h2
          · exact Or.inl h2
          · obtain ⟨c, hc, hr⟩ := h2
            exact Or.inr (reachable_step hWf hc hr)
        · rw [List.mem_singleton] at h
          exact Or.inr (h ▸ reachable_refl st x)
      · intro _
        exact ⟨_, rfl⟩

/-! ### Properties of the topological order -/

theorem getD_eq_getElem2 {l : List Nat} {p : Nat} (h : p < l.length) :
    l.getD p 0 = l.get ⟨p, h⟩ := by
  simp [List.getD_eq_getElem?_getD, List.getElem?_eq_getElem h]

theorem getD_reverse {l : List Nat} {p : Nat} (h : p < l.length) :
    l.reverse.getD p 0 = l.getD (l.length - 1 - p) 0 := by
  simp [List.getD_eq_getElem?_getD, List.getElem?_reverse h]

/-- The structural properties of `createTopoNet st t` for a well-formed arena:
duplicate-free; contains `t` and exactly the nodes reachable from `t`; all
entries are at most `t`; the terminal is first; and every node's operands
occur at strictly later positions. -/
theorem topo_spec {st : St} (hWf : Wf st) {t : Nat} (ht : t < st.length) :
    (createTopoNet st t).Nodup ∧
    t ∈ createTopoNet st t ∧
    (∀ x ∈ createTopoNet st t, x ≤ t) ∧
    (∀ x ∈ createTopoNet st t, Reachable st t x) ∧
    (∀ j, Reachable st t j → j ∈ createTopoNet st t) ∧
    (createTopoNet st t).getD 0 0 = t ∧
    (∀ p, p < (createTopoNet st t).length →
      ∀ c ∈ (getNode st ((createTopoNet st t).getD p 0)).prev,
        ∃ q, p < q ∧ q < (createTopoNet st t).length ∧
          (createTopoNet st t).getD q 0 = c) := by
  obtain ⟨⟨D, hD⟩, m2, m3, m4, m5, m6, m7, m8, m9, m10⟩ :=
    buildTopo_go hWf t st.length [] [] ht (by simp) (by simp)
      List.nodup_nil (prevsBefore_nil st)
  have hL : createTopoNet st t
      = (buildTopoFuel st st.length t ([], [])).2.reverse := rfl
  have hlen : (createTopoNet st t).length
      = (buildTopoFuel st st.length t ([], [])).2.length := by
    rw [hL, List.length_reverse]
  have hmem : ∀ x, x ∈ createTopoNet st t
      ↔ x ∈ (buildTopoFuel st st.length t ([], [])).2 := by
    intro x
    rw [hL, List.mem_reverse]
  refine ⟨?_, ?_, ?_, ?_, ?_, ?_, ?_⟩
  · rw [hL]
    exact List.nodup_reverse.mpr m5
  · exact (hmem t).mpr m7
  · intro x hx
    rcases m8 x ((hmem x).mp hx) with h | h
    · exact absurd h (List.not_mem_nil x)
    · exact h
  · intro x hx
    rcases m9 x ((hmem x).mp hx) with h | h
    · exact absurd h (List.not_mem_nil x)
    · exact h
  · intro j hr
    exact (hmem j).mpr
      (prevsBefore_reach_closed hWf m6 t m7 j hr)
  · obtain ⟨T3, hT3⟩ := m10 (List.not_mem_nil t)
    rw [hL, hT3]
    simp [List.reverse_append]
  · intro p hp c hc
    have hp2 : p < (buildTopoFuel st st.length t ([], [])).2.length := by
      rw [← hlen]; exact hp
    have hq1 : (buildTopoFuel st st.length t ([], [])).2.length - 1 - p
        < (buildTopoFuel st st.length t ([], [])).2.length := by omega
    rw [hL, getD_reverse hp2] at hc
    obtain ⟨q2, hq2, he2⟩ := m6 _ hq1 c hc
    refine ⟨(buildTopoFuel st st.length t ([], [])).2.length - 1 - q2, by omega,
      by rw [hlen]; omega, ?_⟩
    rw [hL, getD_reverse (by omega)]
    have : (buildTopoFuel st st.length t ([], [])).2.length - 1 -
        ((buildTopoFuel st st.length t ([], [])).2.length - 1 - q2) = q2 := by omega
    rw [this]
    exact he2

/-- In the topological order, a node is never an operand of a node that comes
later (equivalently: operands only occur at strictly later positions). -/
theorem topo_pairwise_not_prev {st : St} (hWf : Wf st) {t : Nat}
    (ht : t < st.length) :
    (createTopoNet st t).Pairwise (fun x y => x ∉ (getNode st y).prev) := by
  obtain ⟨hnd, -, -, -, -, -, hpos⟩ := topo_spec hWf ht
  rw [List.pairwise_iff_getElem]
  intro p q hp hq hpq hmem
  have e1 : (createTopoNet st t).getD q 0 = (createTopoNet st t)[q] :=
    (getD_eq_getElem2 hq).trans (List.get_eq_getElem _ _)
  have e0 : (createTopoNet st t).getD p 0 = (createTopoNet st t)[p] :=
    (getD_eq_getElem2 hp).trans (List.get_eq_getElem _ _)
  obtain ⟨r, hr1, hr2, hr3⟩ :=
    hpos q hq ((createTopoNet st t)[p]) (by rw [e1]; exact hmem)
  have e2 : (createTopoNet st t).getD r 0 = (createTopoNet st t)[r] :=
    (getD_eq_getElem2 hr2).trans (List.get_eq_getElem _ _)
  have heq : (createTopoNet st t)[r] = (createTopoNet st t)[p] := by
    rw [← e2]; exact hr3
  have : r = p := hnd.getElem_inj_iff.mp heq
  omega

theorem reachable_trans {st : St} (hWf : Wf st) :
    ∀ i j k, Reachable st i j → Reachable st j k → Reachable st i k := by
  intro i
  induction i using Nat.strong_induction_on with
  | _ i ih =>
    intro j k hij hjk
    rcases reachable_elim hWf hij with rfl | ⟨c, hc, hcj⟩
    · exact hjk
    · exact reachable_step hWf hc (ih c (wf_prev_lt hWf c hc) j k hcj hjk)

/-- The reachable set computed by the traversal is closed under operands. -/
theorem topo_mem_closed {st : St} (hWf : Wf st) {t : Nat} (ht : t < st.length) :
    ∀ x ∈ createTopoNet st t, ∀ c ∈ (getNode st x).prev,
      c ∈ createTopoNet st t := by
  obtain ⟨-, -, -, hreach, hcomp, -, -⟩ := topo_spec hWf ht
  intro x hx c hc
  exact hcomp c (reachable_trans hWf t x c (hreach x hx)
    (reachable_step hWf hc (reachable_refl st c)))

/-! ### Frame lemmas for the two passes of `FullBackward` -/

theorem foldl_setGrad_frame :
    ∀ (L : List Nat) (S : St) (j : Nat), j ∉ L →
      getNode (L.foldl (fun s n => setGrad s n 0) S) j = getNode S j := by
  intro L
  induction L with
  | nil => intro S j _; rfl
  | cons x L ihl =>
      intro S j hj
      simp only [List.foldl_cons]
      have hxj : x ≠ j := by
        intro he
        exact hj (he ▸ List.mem_cons_self x L)
      rw [ihl _ j (fun h => hj (List.mem_cons_of_mem x h)), getNode_setGrad_ne _ hxj]

theorem foldl_setGrad_zero :
    ∀ (L : List Nat) (S : St) (j : Nat), j ∈ L → j < S.length →
      (getNode (L.foldl (fun s n => setGrad s n 0) S) j).grad = 0 := by
  intro L
  induction L with
  | nil => intro S j hj _; exact absurd hj (List.not_mem_nil j)
  | cons x L ihl =>
      intro S j hj hlen
      simp only [List.foldl_cons]
      by_cases hmem : j ∈ L
      · exact ihl _ j hmem (by rw [length_setGrad]; exact hlen)
      · have hjx : j = x := by
          rcases List.mem_cons.mp hj with h | h
          · exact h
          · exact absurd h hmem
        subst hjx
        rw [foldl_setGrad_frame L _ j hmem]
        rw [grad_setGrad 0 hlen]
        simp

theorem length_foldl_setGrad :
    ∀ (L : List Nat) (S : St),
      (L.foldl (fun s n => setGrad s n 0) S).length = S.length := by
  intro L
  induction L with
  | nil => intro S; rfl
  | cons x L ihl =>
      intro S
      simp only [List.foldl_cons]
      rw [ihl, length_setGrad]

theorem length_backwardStep (S : St) (i : Nat) :
    (backwardStep S i).length = S.length :=
  ((eqButGrad_backwardStep S i).1).symm

theorem walk_frame {stRef : St} :
    ∀ (L : List Nat) (S : St) (j : Nat), eqButGrad stRef S →
      (∀ y ∈ L, j ∉ (getNode stRef y).prev) →
      getNode (L.foldl (fun s n => backwardStep s n) S) j = getNode S j := by
  intro L
  induction L with
  | nil => intro S j _ _; rfl
  | cons y L ihl =>
      intro S j hsh hj
      simp only [List.foldl_cons]
      have hpv : (getNode S y).prev = (getNode stRef y).prev := ((hsh.2 y).2.1).symm
      rw [ihl _ j (eqButGrad_trans hsh (eqButGrad_backwardStep S y))
        (fun x hx => hj x (List.mem_cons_of_mem y hx))]
      rw [getNode_backwardStep_not_prev
        (by rw [hpv]; exact hj y (List.mem_cons_self y L))]

/-! ### Claim C2 -/

/-- Claim C2: the order in which `FullBackward` invokes the backward closures
is exactly `createTopoNet st t`; in that order the terminal comes first and
every node appears strictly before each of its operands (equivalently, after
all of its consumers, which is what positions-later-than means for operand
occurrences). -/
theorem claimC2_topo_order {st : St} (hWf : Wf st) {t : Nat} (ht : t < st.length) :
    (createTopoNet st t).getD 0 0 = t ∧
    (∀ p, p < (createTopoNet st t).length →
      ∀ c ∈ (getNode st ((createTopoNet st t).getD p 0)).prev,
        ∃ q, p < q ∧ q < (createTopoNet st t).length ∧
          (createTopoNet st t).getD q 0 = c) := by
  obtain ⟨-, -, -, -, -, h6, h7⟩ := topo_spec hWf ht
  exact ⟨h6, h7⟩

/-! ### Claim C8 -/

/-- Claim C8: for a well-formed (finite, acyclic-by-construction) arena the
traversal terminates: any fuel at least `st.length` produces the same
result, i.e. the unbounded Go recursion bottoms out; the backward walk is a
fold over the resulting finite list and always runs to completion.  A cyclic
`operands` graph violates the `Wf` precondition and is not handled. -/
theorem claimC8_termination {st : St} (hWf : Wf st) {t : Nat} (ht : t < st.length) :
    ∀ f, st.length ≤ f →
      buildTopoFuel st f t ([], []) = buildTopoFuel st st.length t ([], []) ∧
      reversedCopy (buildTopoFuel st f t ([], [])).2 = createTopoNet st t := by
  intro f hf
  have h := buildTopoFuel_fuel_congr hWf t f st.length ([], []) (by omega) ht
  exact ⟨h, by rw [createTopoNet, reversedCopy, reversedCopy, h]⟩

/-! ### Claim C9 -/

/-- Nodes outside the topological order are completely unchanged by
`FullBackward`. -/
theorem fullBackward_topo_frame {st : St} (hWf : Wf st) {t : Nat}
    (ht : t < st.length) {j : Nat} (hjL : j ∉ createTopoNet st t) :
    getNode (fullBackward st t) j = getNode st j := by
  obtain ⟨hnd, htm, hle, hreach, hcomp, hhead, hpos⟩ := topo_spec hWf ht
  unfold fullBackward
  have h1 : getNode ((createTopoNet st t).foldl (fun s n => setGrad s n 0) st) j
      = getNode st j := foldl_setGrad_frame _ st j hjL
  have hjt : t ≠ j := fun he => hjL (he ▸ htm)
  rw [walk_frame _ _ j
    (eqButGrad_trans (eqButGrad_foldl_setGrad _ st) (eqButGrad_setGrad _ t 1))
    (fun y hy hmem => hjL (topo_mem_closed hWf ht y hy j hmem)),
    getNode_setGrad_ne _ hjt, h1]

/-- Claim C9: `run_backward(t)` writes only nodes reachable from `t`: any
node `j` not reachable from `t` is completely unchanged — gradient (even a
stale nonzero one) and all other fields. -/
theorem claimC9_frame {st : St} (hWf : Wf st) {t : Nat} (ht : t < st.length)
    {j : Nat} (hj : ¬ Reachable st t j) :
    getNode (fullBackward st t) j = getNode st j := by
  obtain ⟨-, -, -, hreach, -, -, -⟩ := topo_spec hWf ht
  exact fullBackward_topo_frame hWf ht (fun hin => hj (hreach j hin))

/-! ### Shared example graph for witnesses: a = leaf 2, m = a*a, out = m + a -/

/-- Witness graph: `a = create_leaf(2)`. -/
def exA : St × Nat := newValue [] 2 "a"
/-- Witness graph: `m = multiply(a, a)`. -/
def exM : St × Nat := vmul exA.1 exA.2 exA.2
/-- Witness graph: `out = add(m, a)`. -/
def exOut : St × Nat := vadd exM.1 exM.2 exA.2
/-- Witness graph arena. -/
def exSt : St := exOut.1

/-- Witness for claim C2: the hypotheses hold and the conclusion follows on
the concrete graph `out = a*a + a`. -/
theorem claimC2_witness :
    (Wf exSt ∧ exOut.2 < exSt.length) ∧
    ((createTopoNet exSt exOut.2).getD 0 0 = exOut.2 ∧
     (∀ p, p < (createTopoNet exSt exOut.2).length →
       ∀ c ∈ (getNode exSt ((createTopoNet exSt exOut.2).getD p 0)).prev,
         ∃ q, p < q ∧ q < (createTopoNet exSt exOut.2).length ∧
           (createTopoNet exSt exOut.2).getD q 0 = c)) :=
  ⟨⟨by decide, by decide⟩, claimC2_topo_order (by decide) (by decide)⟩

/-- Witness for claim C8 at the concrete graph, with surplus fuel 5. -/
theorem claimC8_witness :
    (Wf exSt ∧ exOut.2 < exSt.length ∧ exSt.length ≤ 5) ∧
    (buildTopoFuel exSt 5 exOut.2 ([], [])
        = buildTopoFuel exSt exSt.length exOut.2 ([], []) ∧
      reversedCopy (buildTopoFuel exSt 5 exOut.2 ([], [])).2
        = createTopoNet exSt exOut.2) :=
  ⟨⟨by decide, by decide, by decide⟩,
    claimC8_termination (by decide) (by decide) 5 (by decide)⟩

/-- Witness graph for claim C9: a stale node with nonzero gradient outside
the graph reachable from the terminal. -/
def exC9st : St :=
  [⟨5, 7, [], "", "stale", BackKind.noneB⟩,
   ⟨2, 0, [], "", "a", BackKind.noneB⟩,
   ⟨4, 0, [1, 1], "*", "", BackKind.mulB⟩]

/-- Witness for claim C9: backpropagating from node 2 leaves the unreachable
node 0 (with stale gradient 7) entirely unchanged. -/
theorem claimC9_witness :
    (Wf exC9st ∧ 2 < exC9st.length ∧ ¬ Reachable exC9st 2 0) ∧
    getNode (fullBackward exC9st 2) 0 = getNode exC9st 0 :=
  ⟨⟨by decide, by decide, by decide⟩,
    claimC9_frame (by decide) (by decide) (by decide)⟩

/-! ### The last-edge decomposition of the path derivative -/

theorem mul_list_sum (b : ℚ) (l : List (Nat × ℚ)) (f : (Nat × ℚ) → ℚ) :
    b * (l.map f).sum = (l.map (fun x => b * f x)).sum := by
  induction l with
  | nil => simp
  | cons x l ih => simp [mul_add, ih]

theorem list_sum_sub (l : List (Nat × ℚ)) (f g : (Nat × ℚ) → ℚ) :
    (l.map (fun x => f x - g x)).sum = (l.map f).sum - (l.map g).sum := by
  induction l with
  | nil => simp
  | cons x l ih =>
      simp only [List.map_cons, List.sum_cons, ih]
      ring

theorem finset_list_swap (R : Finset Nat) (l : List (Nat × ℚ))
    (g : Nat → (Nat × ℚ) → ℚ) :
    ∑ i in R, (l.map (g i)).sum = (l.map (fun cw => ∑ i in R, g i cw)).sum := by
  induction l with
  | nil => simp
  | cons cw l ih =>
      simp only [List.map_cons, List.sum_cons, Finset.sum_add_distrib, ih]

theorem topo_toFinset_subset {st : St} (hWf : Wf st) {t c : Nat}
    (ht : t < st.length) (hc : c ∈ (getNode st t).prev) :
    (createTopoNet st c).toFinset ⊆ (createTopoNet st t).toFinset := by
  intro x hx
  rw [List.mem_toFinset] at hx ⊢
  have hclen : c < st.length := Nat.lt_trans (wf_prev_lt hWf c hc) ht
  obtain ⟨-, -, -, hreachc, -, -, -⟩ := topo_spec hWf hclen
  obtain ⟨-, -, -, -, hcompt, -, -⟩ := topo_spec hWf ht
  exact hcompt x (reachable_step hWf hc (hreachc x hx))

/-- The last-edge decomposition: the derivative of `t` with respect to `j` is
the Kronecker delta plus, over every node `i` in the reachable set, the local
weight of the edge from `i` into `j` times the derivative of `t` with respect
to `i`.  This is the recurrence satisfied by the reverse accumulation pass. -/
theorem lastEdge {st : St} (hWf : Wf st) :
    ∀ t, t < st.length → ∀ j,
      pathDeriv st t j = (if j = t then 1 else 0)
        + ((createTopoNet st t).map (fun i => inW st i j * pathDeriv st t i)).sum := by
  intro t
  induction t using Nat.strong_induction_on with
  | _ t ihh =>
    intro ht j
    obtain ⟨hnd, htm, hle, hreach, hcomp, hhead, hpos⟩ := topo_spec hWf ht
    have hfin : ((createTopoNet st t).map
          (fun i => inW st i j * pathDeriv st t i)).sum
        = ∑ i in (createTopoNet st t).toFinset, inW st i j * pathDeriv st t i :=
      (List.sum_toFinset _ hnd).symm
    rw [hfin]
    have step1 : ∑ i in (createTopoNet st t).toFinset, inW st i j * pathDeriv st t i
        = ∑ i in (createTopoNet st t).toFinset,
            (inW st i j * (if t = i then 1 else 0)
              + inW st i j * ((localWeights st t).map
                  (fun cw => cw.2 * pathDeriv st cw.1 i)).sum) := by
      refine Finset.sum_congr rfl (fun i _ => ?_)
      rw [← mul_add, ← pathDeriv_firstEdge hWf t i]
    rw [step1, Finset.sum_add_distrib]
    have termA : ∑ i in (createTopoNet st t).toFinset,
        inW st i j * (if t = i then 1 else 0) = inW st t j := by
      have : ∀ i ∈ (createTopoNet st t).toFinset,
          inW st i j * (if t = i then 1 else 0)
            = if t = i then inW st i j else 0 := by
        intro i _
        by_cases h : t = i <;> simp [h]
      rw [Finset.sum_congr rfl this, Finset.sum_ite_eq]
      simp [List.mem_toFinset.mpr htm]
    have termB : ∑ i in (createTopoNet st t).toFinset,
        inW st i j * ((localWeights st t).map
          (fun cw => cw.2 * pathDeriv st cw.1 i)).sum
        = pathDeriv st t j - (if t = j then 1 else 0) - inW st t j := by
      have hB1 : ∀ i ∈ (createTopoNet st t).toFinset,
          inW st i j * ((localWeights st t).map
            (fun cw => cw.2 * pathDeriv st cw.1 i)).sum
          = ((localWeights st t).map
              (fun cw => inW st i j * (cw.2 * pathDeriv st cw.1 i))).sum := by
        intro i _
        exact mul_list_sum _ _ _
      rw [Finset.sum_congr rfl hB1, finset_list_swap]
      have hB2 : ∀ cw ∈ localWeights st t,
          (∑ i in (createTopoNet st t).toFinset,
            inW st i j * (cw.2 * pathDeriv st cw.1 i))
          = cw.2 * (pathDeriv st cw.1 j - (if j = cw.1 then 1 else 0)) := by
        intro cw hcw
        have hcp : cw.1 ∈ (getNode st t).prev := localWeights_mem_prev st t cw hcw
        have hct : cw.1 < t := wf_prev_lt hWf _ hcp
        have hclen : cw.1 < st.length := Nat.lt_trans hct ht
        obtain ⟨hndc, -, -, -, hcompc, -, -⟩ := topo_spec hWf hclen
        have hsub := topo_toFinset_subset hWf ht hcp
        have hzero : ∀ i ∈ (createTopoNet st t).toFinset,
            i ∉ (createTopoNet st cw.1).toFinset →
              inW st i j * (cw.2 * pathDeriv st cw.1 i) = 0 := by
          intro i _ hni
          have hnr : ¬ Reachable st cw.1 i := by
            intro hr
            exact hni (List.mem_toFinset.mpr (hcompc i hr))
          rw [pathDeriv_eq_zero_of_not_reachable hWf _ _ hnr]
          ring
        rw [← Finset.sum_subset hsub hzero]
        have : ∀ i ∈ (createTopoNet st cw.1).toFinset,
            inW st i j * (cw.2 * pathDeriv st cw.1 i)
              = cw.2 * (inW st i j * pathDeriv st cw.1 i) := by
          intro i _
          ring
        rw [Finset.sum_congr rfl this, ← Finset.mul_sum]
        have hIH := ihh cw.1 hct hclen j
        have hfinc : ((createTopoNet st cw.1).map
              (fun i => inW st i j * pathDeriv st cw.1 i)).sum
            = ∑ i in (createTopoNet st cw.1).toFinset,
                inW st i j * pathDeriv st cw.1 i :=
          (List.sum_toFinset _ hndc).symm
        rw [hfinc] at hIH
        have hS : (∑ i in (createTopoNet st cw.1).toFinset,
              inW st i j * pathDeriv st cw.1 i)
            = pathDeriv st cw.1 j - (if j = cw.1 then 1 else 0) := by
          rw [hIH]; ring
        rw [hS]
      rw [List.map_congr_left hB2]
      have hdist : ∀ cw ∈ localWeights st t,
          cw.2 * (pathDeriv st cw.1 j - (if j = cw.1 then 1 else 0))
            = cw.2 * pathDeriv st cw.1 j - cw.2 * (if j = cw.1 then 1 else 0) :=
        fun cw _ => by ring
      rw [List.map_congr_left hdist]
      rw [list_sum_sub (localWeights st t)
        (fun cw => cw.2 * pathDeriv st cw.1 j)
        (fun cw => cw.2 * (if j = cw.1 then 1 else 0))]
      have hfe := pathDeriv_firstEdge hWf t j
      have hinw : ((localWeights st t).map
          (fun cw => cw.2 * (if j = cw.1 then 1 else 0))).sum = inW st t j := by
        unfold inW
        refine congrArg List.sum (List.map_congr_left ?_)
        intro cw _
        by_cases h : cw.1 = j
        · simp [h]
        · have h2 : ¬ (j = cw.1) := fun he => h he.symm
          simp [h, h2]
      rw [hinw]
      have hfirst : ((localWeights st t).map
          (fun cw => cw.2 * pathDeriv st cw.1 j)).sum
          = pathDeriv st t j - (if t = j then 1 else 0) := by
        rw [hfe]
        ring
      rw [hfirst]
    rw [termA, termB]
    by_cases h : t = j
    · subst h
      simp only [if_pos rfl]
      ring
    · have h2 : j ≠ t := fun he => h he.symm
      simp only [if_neg h, if_neg h2]
      ring

/-! ### The backward walk formula -/

/-- The effect of walking a list of nodes `M` with `backwardStep`, when no
node of `M` is an operand of a later node of `M` (the topological-order
discipline): every gradient ends up equal to its initial value plus, for each
walked node `i`, the edge weight into `j` times the *final* gradient of `i`
(which is stable by the time `i` is walked). -/
theorem walk_formula {stRef : St} :
    ∀ (M : List Nat) (S : St), eqButGrad stRef S →
      (∀ y ∈ M, ∀ c ∈ (getNode stRef y).prev, c < y) →
      (∀ y ∈ M, ∀ c ∈ (getNode stRef y).prev, c < stRef.length) →
      M.Pairwise (fun x y => x ∉ (getNode stRef y).prev) →
      ∀ j, (getNode (M.foldl (fun s n => backwardStep s n) S) j).grad
        = (getNode S j).grad
          + (M.map (fun i => inW stRef i j *
              (getNode (M.foldl (fun s n => backwardStep s n) S) i).grad)).sum := by
  intro M
  induction M with
  | nil => intro S _ _ _ _ j; simp
  | cons i M ihm =>
      intro S hsh hlt hv hpw j
      have hshi : eqButGrad stRef (backwardStep S i) :=
        eqButGrad_trans hsh (eqButGrad_backwardStep S i)
      have hpv : (getNode S i).prev = (getNode stRef i).prev := ((hsh.2 i).2.1).symm
      have hlen : S.length = stRef.length := hsh.1.symm
      have hlw : localWeights S i = localWeights stRef i :=
        localWeights_eq_of ((hsh.2 i).2.2.2.2).symm hpv ((hsh.2 i).1).symm
          (fun c _ => ((hsh.2 c).1).symm)
      have hinWS : ∀ k, inW S i k = inW stRef i k := by
        intro k
        unfold inW
        rw [hlw]
      have hstep : ∀ k, (getNode (backwardStep S i) k).grad
          = (getNode S k).grad + inW stRef i k * (getNode S i).grad := by
        intro k
        rw [← hinWS k]
        exact grad_backwardStep S i
          (by rw [hpv]; exact hlt i (List.mem_cons_self i M))
          (by rw [hpv, hlen]; exact hv i (List.mem_cons_self i M)) k
      have hpw2 : M.Pairwise (fun x y => x ∉ (getNode stRef y).prev) :=
        (List.pairwise_cons.mp hpw).2
      have hihead : ∀ y ∈ M, i ∉ (getNode stRef y).prev :=
        (List.pairwise_cons.mp hpw).1
      simp only [List.foldl_cons, List.map_cons, List.sum_cons]
      have hIH := ihm (backwardStep S i) hshi
        (fun y hy => hlt y (List.mem_cons_of_mem i hy))
        (fun y hy => hv y (List.mem_cons_of_mem i hy)) hpw2
      -- the final gradient of i is already fixed when i is walked
      have hfi : getNode (M.foldl (fun s n => backwardStep s n) (backwardStep S i)) i
          = getNode (backwardStep S i) i :=
        walk_frame M (backwardStep S i) i hshi hihead
      have hii : inW stRef i i = 0 := by
        have : i ∉ (getNode stRef i).prev := by
          intro hmem
          exact absurd (hlt i (List.mem_cons_self i M) i hmem) (Nat.lt_irrefl i)
        rw [← hinWS i]
        exact inW_eq_zero_of_not_mem (by rw [hpv]; exact this)
      have hgi : (getNode (M.foldl (fun s n => backwardStep s n) (backwardStep S i)) i).grad
          = (getNode S i).grad := by
        rw [hfi, hstep i, hii]
        ring
      rw [hIH j, hstep j, hgi]
      ring

/-! ### Claim C1 -/

theorem fullBackward_pathDeriv {st : St} (hWf : Wf st) {t : Nat}
    (ht : t < st.length) {j : Nat} (hj : Reachable st t j) :
    (getNode (fullBackward st t) j).grad = pathDeriv st t j := by
  obtain ⟨hnd, htm, hle, hreach, hcomp, hhead, hpos⟩ := topo_spec hWf ht
  have hjL : j ∈ createTopoNet st t := hcomp j hj
  -- the state after the reset pass and terminal initialization
  have hS0 : ∀ k ∈ createTopoNet st t,
      (getNode (setGrad ((createTopoNet st t).foldl
          (fun s n => setGrad s n 0) st) t 1) k).grad
        = if k = t then 1 else 0 := by
    intro k hk
    have hklen : k < st.length := Nat.lt_of_le_of_lt (hle k hk) ht
    have htlen : t < ((createTopoNet st t).foldl
        (fun s n => setGrad s n 0) st).length := by
      rw [length_foldl_setGrad]; exact ht
    by_cases hkt : k = t
    · subst hkt
      rw [grad_setGrad 1 htlen]
      simp
    · rw [getNode_setGrad_ne _ (fun he => hkt he.symm)]
      rw [foldl_setGrad_zero _ st k hk hklen]
      simp [hkt]
  -- hypotheses of the walk formula for the topological order
  have hshape : eqButGrad st (setGrad ((createTopoNet st t).foldl
      (fun s n => setGrad s n 0) st) t 1) :=
    eqButGrad_trans (eqButGrad_foldl_setGrad _ st) (eqButGrad_setGrad _ t 1)
  have hltL : ∀ y ∈ createTopoNet st t, ∀ c ∈ (getNode st y).prev, c < y :=
    fun y _ c hc => wf_prev_lt hWf c hc
  have hvL : ∀ y ∈ createTopoNet st t, ∀ c ∈ (getNode st y).prev, c < st.length :=
    fun y hy c hc => Nat.lt_of_lt_of_le (wf_prev_lt hWf c hc)
      (Nat.le_of_lt (Nat.lt_of_le_of_lt (hle y hy) ht))
  have hwalk := walk_formula (createTopoNet st t)
    (setGrad ((createTopoNet st t).foldl (fun s n => setGrad s n 0) st) t 1)
    hshape hltL hvL (topo_pairwise_not_prev hWf ht)
  -- the gradients after run_backward satisfy the last-edge recurrence,
  -- whose unique solution (by strictly increasing positions) is pathDeriv
  have hkey : ∀ q, q < (createTopoNet st t).length →
      ∀ k, (createTopoNet st t).getD q 0 = k →
        (getNode (fullBackward st t) k).grad = pathDeriv st t k := by
    intro q
    induction q using Nat.strong_induction_on with
    | _ q ihq =>
      intro hq k hk
      have hkL : k ∈ createTopoNet st t := mem_iff_getD.mpr ⟨q, hq, hk⟩
      have hrec : (getNode (fullBackward st t) k).grad
          = (if k = t then 1 else 0)
            + ((createTopoNet st t).map (fun i => inW st i k *
                (getNode (fullBackward st t) i).grad)).sum := by
        have := hwalk k
        rw [hS0 k hkL] at this
        exact this
      rw [hrec, lastEdge hWf t ht k]
      have hsum : ∀ i ∈ createTopoNet st t,
          inW st i k * (getNode (fullBackward st t) i).grad
            = inW st i k * pathDeriv st t i := by
        intro i hi
        by_cases hzero : inW st i k = 0
        · rw [hzero]
          ring
        · have hkp : k ∈ (getNode st i).prev := by
            by_contra hnm
            exact hzero (inW_eq_zero_of_not_mem hnm)
          obtain ⟨p, hp, hip⟩ := mem_iff_getD.mp hi
          obtain ⟨r, hr1, hr2, hr3⟩ := hpos p hp k (by rw [hip]; exact hkp)
          have hrq : r = q := by
            have e1 : (createTopoNet st t).getD r 0 = (createTopoNet st t).get ⟨r, hr2⟩ :=
              getD_eq_getElem2 hr2
            have e2 : (createTopoNet st t).getD q 0 = (createTopoNet st t).get ⟨q, hq⟩ :=
              getD_eq_getElem2 hq
            have : (createTopoNet st t).get ⟨r, hr2⟩ = (createTopoNet st t).get ⟨q, hq⟩ := by
              rw [← e1, ← e2, hr3, hk]
            have := hnd.getElem_inj_iff.mp this
            exact this
          have hpq : p < q := by omega
          rw [ihq p hpq hp i hip]
      rw [List.map_congr_left hsum]
  obtain ⟨q, hq, hk⟩ := mem_iff_getD.mp hjL
  exact hkey q hq j hk

/-- Claim C1: after `run_backward(t)` on a well-formed arena, every node `j`
reachable from the terminal `t` holds the path-summed partial derivative
`∂t/∂j` in its gradient field (fan-out accumulated by `+=` across all paths). -/
theorem claimC1_backprop_correct {st : St} (hWf : Wf st) {t : Nat}
    (ht : t < st.length) {j : Nat} (hj : Reachable st t j) :
    (getNode (fullBackward st t) j).grad = pathDeriv st t j :=
  fullBackward_pathDeriv hWf ht hj

/-! ### Well-formedness preservation and pointwise computation helpers -/

theorem wf_append {st : St} (hWf : Wf st) {n : Node}
    (hn : ∀ c ∈ n.prev, c < st.length) : Wf (st ++ [n]) := by
  intro i hi c hc
  rw [List.length_append] at hi
  by_cases h : i < st.length
  · rw [getNode_append_left h] at hc
    exact hWf i h c hc
  · have h2 : i = st.length := by simp at hi; omega
    subst h2
    rw [getNode_append_singleton] at hc
    exact hn c hc

theorem wf_set_preserve {st : St} (hWf : Wf st) {i : Nat} {n : Node}
    (hn : n.prev = (getNode st i).prev) : Wf (st.set i n) := by
  intro k hk c hc
  rw [List.length_set] at hk
  by_cases h : i = k
  · subst h
    by_cases hlen : i < st.length
    · rw [getNode_set_self hlen, hn] at hc
      exact hWf i hlen c hc
    · rw [List.set_eq_of_length_le (Nat.le_of_not_lt hlen)] at hc
      exact hWf i hk c hc
  · rw [getNode_set_ne h] at hc
    exact hWf k hk c hc

theorem localWeights_addB {st : St} {i a b : Nat}
    (hb : (getNode st i).bwd = BackKind.addB)
    (hp : (getNode st i).prev = [a, b]) :
    localWeights st i = [(a, 1), (b, 1)] := by
  unfold localWeights
  rw [hb, hp]

theorem localWeights_mulB {st : St} {i a b : Nat}
    (hb : (getNode st i).bwd = BackKind.mulB)
    (hp : (getNode st i).prev = [a, b]) :
    localWeights st i = [(a, (getNode st b).data), (b, (getNode st a).data)] := by
  unfold localWeights
  rw [hb, hp]

theorem localWeights_powB {st : St} {i a : Nat} {p : ℚ}
    (hb : (getNode st i).bwd = BackKind.powB p)
    (hp : (getNode st i).prev = [a]) :
    localWeights st i = [(a, p * powf (getNode st a).data (p - 1))] := by
  unfold localWeights
  rw [hb, hp]

theorem localWeights_noneB {st : St} {i : Nat}
    (hb : (getNode st i).bwd = BackKind.noneB) :
    localWeights st i = [] := by
  unfold localWeights
  rw [hb]

theorem localWeights_subB {st : St} {i a b : Nat}
    (hb : (getNode st i).bwd = BackKind.subB)
    (hp : (getNode st i).prev = [a, b]) :
    localWeights st i = [(a, 1), (b, -1)] := by
  unfold localWeights
  rw [hb, hp]

theorem localWeights_divB {st : St} {i a b : Nat}
    (hb : (getNode st i).bwd = BackKind.divB)
    (hp : (getNode st i).prev = [a, b]) :
    localWeights st i = [(a, 1 / (getNode st b).data),
      (b, -((getNode st a).data / ((getNode st b).data * (getNode st b).data)))] := by
  unfold localWeights
  rw [hb, hp]

/-- The derivative of a leaf with respect to anything is the Kronecker delta. -/
theorem pathDeriv_leaf {st : St} (hWf : Wf st) {i : Nat}
    (hb : (getNode st i).bwd = BackKind.noneB) (j : Nat) :
    pathDeriv st i j = if i = j then 1 else 0 := by
  rw [pathDeriv_firstEdge hWf, localWeights_noneB hb]
  simp

/-- Witness for claim C1, on the fan-out graph `a = create_leaf(2)`,
`out = add(multiply(a,a), a)`: the backpropagated gradient of `a` equals the
path-summed derivative, and both equal `2*a.value + 1 = 5`. -/
theorem claimC1_witness :
    (Wf exSt ∧ exOut.2 < exSt.length ∧ Reachable exSt exOut.2 exA.2) ∧
    (getNode (fullBackward exSt exOut.2) exA.2).grad = 5 ∧
    pathDeriv exSt exOut.2 exA.2 = 5 := by
  have hWf : Wf exSt := by decide
  have hb2 : (getNode exSt 2).bwd = BackKind.addB := by decide
  have hp2 : (getNode exSt 2).prev = [1, 0] := by decide
  have hb1 : (getNode exSt 1).bwd = BackKind.mulB := by decide
  have hp1 : (getNode exSt 1).prev = [0, 0] := by decide
  have hb0 : (getNode exSt 0).bwd = BackKind.noneB := by decide
  have hd0 : (getNode exSt 0).data = 2 := by decide
  have hD1 : pathDeriv exSt 1 0 = 4 := by
    rw [pathDeriv_firstEdge hWf, localWeights_mulB hb1 hp1, hd0]
    simp only [List.map_cons, List.map_nil, List.sum_cons, List.sum_nil]
    rw [pathDeriv_self]
    norm_num
  have hD : pathDeriv exSt 2 0 = 5 := by
    rw [pathDeriv_firstEdge hWf, localWeights_addB hb2 hp2]
    simp only [List.map_cons, List.map_nil, List.sum_cons, List.sum_nil]
    rw [pathDeriv_self, hD1]
    norm_num
  have hD0 : pathDeriv exSt exOut.2 exA.2 = 5 := hD
  refine ⟨⟨hWf, by decide, by decide⟩, ?_, hD0⟩
  rw [claimC1_backprop_correct hWf (by decide) (by decide)]
  exact hD0

/-! ### Claim C6, amended part -/

theorem c6_state (st : St) (x y : ℚ) (la lb : String) :
    vadd (newValue (newValue st x la).1 y lb).1 (newValue st x la).2
        (newValue (newValue st x la).1 y lb).2
      = (st ++ [⟨x, 0, [], "", la, BackKind.noneB⟩,
          ⟨y, 0, [], "", lb, BackKind.noneB⟩,
          ⟨x + y, 0, [st.length, st.length + 1], "+", "", BackKind.addB⟩],
        st.length + 2) := by
  have g1 : getNode (st ++ [(⟨x, 0, [], "", la, BackKind.noneB⟩ : Node),
      ⟨y, 0, [], "", lb, BackKind.noneB⟩]) st.length
      = ⟨x, 0, [], "", la, BackKind.noneB⟩ := by
    rw [getNode_append_right (Nat.le_refl _)]
    simp [getNode]
  have g2 : getNode (st ++ [(⟨x, 0, [], "", la, BackKind.noneB⟩ : Node),
      ⟨y, 0, [], "", lb, BackKind.noneB⟩]) (st.length + 1)
      = ⟨y, 0, [], "", lb, BackKind.noneB⟩ := by
    rw [getNode_append_right (by omega)]
    have h1 : st.length + 1 - st.length = 1 := by omega
    rw [h1]
    simp [getNode]
  unfold vadd newValue
  simp only [List.length_append, List.length_cons, List.length_nil, List.append_assoc,
    List.cons_append, List.nil_append]
  rw [show st.length + (0 + 1) = st.length + 1 from by omega]
  rw [g1, g2]

/-- Claim C6 amended: for two freshly created (hence distinct) leaf nodes `a`
and `b` in any well-formed arena, with `out = add(a, b)`, after
`run_backward(out)` both gradients are 1 (`∂out/∂a = ∂out/∂b = 1`). -/
theorem claimC6_amended (st : St) (hWf : Wf st) (x y : ℚ) (la lb : String) :
    (getNode (fullBackward
        (vadd (newValue (newValue st x la).1 y lb).1
          (newValue st x la).2 (newValue (newValue st x la).1 y lb).2).1
        (vadd (newValue (newValue st x la).1 y lb).1
          (newValue st x la).2 (newValue (newValue st x la).1 y lb).2).2)
      (newValue st x la).2).grad = 1 ∧
    (getNode (fullBackward
        (vadd (newValue (newValue st x la).1 y lb).1
          (newValue st x la).2 (newValue (newValue st x la).1 y lb).2).1
        (vadd (newValue (newValue st x la).1 y lb).1
          (newValue st x la).2 (newValue (newValue st x la).1 y lb).2).2)
      (newValue (newValue st x la).1 y lb).2).grad = 1 := by
  rw [c6_state st x y la lb]
  have hidx1 : (newValue st x la).2 = st.length := rfl
  have hidx2 : (newValue (newValue st x la).1 y lb).2 = st.length + 1 := by
    simp [newValue]
  rw [hidx1, hidx2]
  set E := st ++ [⟨x, 0, [], "", la, BackKind.noneB⟩,
    ⟨y, 0, [], "", lb, BackKind.noneB⟩,
    ⟨x + y, 0, [st.length, st.length + 1], "+", "", BackKind.addB⟩] with hE
  have hlenE : E.length = st.length + 3 := by simp [hE]
  have hA : getNode E st.length = ⟨x, 0, [], "", la, BackKind.noneB⟩ := by
    rw [hE, getNode_append_right (Nat.le_refl _)]
    simp [getNode]
  have hB : getNode E (st.length + 1) = ⟨y, 0, [], "", lb, BackKind.noneB⟩ := by
    rw [hE, getNode_append_right (by omega)]
    have : st.length + 1 - st.length = 1 := by omega
    rw [this]
    simp [getNode]
  have hC : getNode E (st.length + 2)
      = ⟨x + y, 0, [st.length, st.length + 1], "+", "", BackKind.addB⟩ := by
    rw [hE, getNode_append_right (by omega)]
    have : st.length + 2 - st.length = 2 := by omega
    rw [this]
    simp [getNode]
  have hWfE : Wf E := by
    intro i hi c hc
    rw [hlenE] at hi
    by_cases h1 : i < st.length
    · rw [hE, getNode_append_left h1] at hc
      exact hWf i h1 c hc
    · have : i = st.length ∨ i = st.length + 1 ∨ i = st.length + 2 := by omega
      rcases this with rfl | rfl | rfl
      · rw [hA] at hc
        exact absurd hc (List.not_mem_nil c)
      · rw [hB] at hc
        exact absurd hc (List.not_mem_nil c)
      · rw [hC] at hc
        simp at hc
        rcases hc with rfl | rfl <;> omega
  have hra : Reachable E (st.length + 2) st.length :=
    reachable_step hWfE (by rw [hC]; simp) (reachable_refl E st.length)
  have hrb : Reachable E (st.length + 2) (st.length + 1) :=
    reachable_step hWfE (by rw [hC]; simp) (reachable_refl E (st.length + 1))
  have hlwC : localWeights E (st.length + 2)
      = [(st.length, 1), (st.length + 1, 1)] :=
    localWeights_addB (by rw [hC]) (by rw [hC])
  have hDa : pathDeriv E (st.length + 2) st.length = 1 := by
    rw [pathDeriv_firstEdge hWfE, hlwC]
    simp only [List.map_cons, List.map_nil, List.sum_cons, List.sum_nil]
    rw [pathDeriv_self, pathDeriv_leaf hWfE (by rw [hB])]
    rw [if_neg (by omega), if_neg (by omega)]
    norm_num
  have hDb : pathDeriv E (st.length + 2) (st.length + 1) = 1 := by
    rw [pathDeriv_firstEdge hWfE, hlwC]
    simp only [List.map_cons, List.map_nil, List.sum_cons, List.sum_nil]
    rw [pathDeriv_self, pathDeriv_leaf hWfE (by rw [hA])]
    rw [if_neg (by omega), if_neg (by omega)]
    norm_num
  constructor
  · rw [fullBackward_pathDeriv hWfE (by omega) hra]
    exact hDa
  · rw [fullBackward_pathDeriv hWfE (by omega) hrb]
    exact hDb

/-- Witness for the amended claim C6, at the empty arena with leaf values 2
and 3. -/
theorem claimC6_amended_witness :
    Wf ([] : St) ∧
    ((getNode (fullBackward
        (vadd (newValue (newValue ([] : St) 2 "a").1 3 "b").1
          (newValue ([] : St) 2 "a").2
          (newValue (newValue ([] : St) 2 "a").1 3 "b").2).1
        (vadd (newValue (newValue ([] : St) 2 "a").1 3 "b").1
          (newValue ([] : St) 2 "a").2
          (newValue (newValue ([] : St) 2 "a").1 3 "b").2).2)
      (newValue ([] : St) 2 "a").2).grad = 1 ∧
     (getNode (fullBackward
        (vadd (newValue (newValue ([] : St) 2 "a").1 3 "b").1
          (newValue ([] : St) 2 "a").2
          (newValue (newValue ([] : St) 2 "a").1 3 "b").2).1
        (vadd (newValue (newValue ([] : St) 2 "a").1 3 "b").1
          (newValue ([] : St) 2 "a").2
          (newValue (newValue ([] : St) 2 "a").1 3 "b").2).2)
      (newValue (newValue ([] : St) 2 "a").1 3 "b").2).grad = 1) :=
  ⟨by decide, claimC6_amended [] (by decide) 2 3 "a" "b"⟩

/-! ### Claim C7: the forward operations never mutate pre-existing nodes,
and the backward pass mutates only gradients -/

theorem getNode_vsub_old {st : St} (a b : Nat) {j : Nat} (hj : j < st.length) :
    getNode (vsub st a b).1 j = getNode st j := by
  unfold vsub vadd vmul newValue setLabel setOp
  dsimp only
  rw [getNode_set_ne (by simp only [List.length_set, List.length_append,
        List.length_cons, List.length_nil]; omega),
    getNode_set_ne (by simp only [List.length_set, List.length_append,
        List.length_cons, List.length_nil]; omega),
    getNode_append_left (by simp only [List.length_set, List.length_append,
        List.length_cons, List.length_nil]; omega),
    getNode_set_ne (by simp only [List.length_set, List.length_append,
        List.length_cons, List.length_nil]; omega),
    getNode_append_left (by simp only [List.length_set, List.length_append,
        List.length_cons, List.length_nil]; omega),
    getNode_append_left hj]

theorem getNode_vdiv_old {st : St} (a b : Nat) {j : Nat} (hj : j < st.length) :
    getNode (vdiv st a b).1 j = getNode st j := by
  unfold vdiv vmul vpow setLabel setOp
  dsimp only
  rw [getNode_set_ne (by simp only [List.length_set, List.length_append,
        List.length_cons, List.length_nil]; omega),
    getNode_set_ne (by simp only [List.length_set, List.length_append,
        List.length_cons, List.length_nil]; omega),
    getNode_append_left (by simp only [List.length_set, List.length_append,
        List.length_cons, List.length_nil]; omega),
    getNode_set_ne (by omega),
    getNode_append_left hj]

/-- Claim C7: at the API level, `gradient` is the only field the engine ever
mutates after a node is constructed.  Every forward operation leaves every
pre-existing node of the arena completely unchanged (it only appends its own
new nodes, adjusting their diagnostic strings before returning), and
`FullBackward` preserves length, data, operands, op string, label and
backward closure of every node, mutating gradients only. -/
theorem claimC7_immutability (st : St) (a b : Nat) (p : ℚ) (v : ℚ)
    (lab : String) (tanhF : ℚ → ℚ) (t : Nat) :
    (∀ j, j < st.length → getNode (newValue st v lab).1 j = getNode st j) ∧
    (∀ j, j < st.length → getNode (vadd st a b).1 j = getNode st j) ∧
    (∀ j, j < st.length → getNode (vmul st a b).1 j = getNode st j) ∧
    (∀ j, j < st.length → getNode (vsub st a b).1 j = getNode st j) ∧
    (∀ j, j < st.length → getNode (vdiv st a b).1 j = getNode st j) ∧
    (∀ j, j < st.length → getNode (vpow st a p).1 j = getNode st j) ∧
    (∀ j, j < st.length → getNode (vtanh tanhF st a).1 j = getNode st j) ∧
    ((fullBackward st t).length = st.length ∧ ∀ j,
      (getNode (fullBackward st t) j).data = (getNode st j).data ∧
      (getNode (fullBackward st t) j).prev = (getNode st j).prev ∧
      (getNode (fullBackward st t) j).op = (getNode st j).op ∧
      (getNode (fullBackward st t) j).label = (getNode st j).label ∧
      (getNode (fullBackward st t) j).bwd = (getNode st j).bwd) := by
  refine ⟨fun j hj => getNode_append_left hj,
    fun j hj => getNode_append_left hj,
    fun j hj => getNode_append_left hj,
    fun j hj => getNode_vsub_old a b hj,
    fun j hj => getNode_vdiv_old a b hj,
    fun j hj => getNode_append_left hj,
    fun j hj => getNode_append_left hj, ?_⟩
  have h := eqButGrad_fullBackward st t
  refine ⟨h.1.symm, fun j => ?_⟩
  obtain ⟨h1, h2, h3, h4, h5⟩ := h.2 j
  exact ⟨h1.symm, h2.symm, h3.symm, h4.symm, h5.symm⟩

/-! ### Claim C4: idempotence of the backward pass -/

theorem buildTopoFuel_shape_congr {s t : St}
    (hp : ∀ j, (getNode s j).prev = (getNode t j).prev) :
    ∀ f i acc, buildTopoFuel s f i acc = buildTopoFuel t f i acc := by
  intro f
  induction f with
  | zero => intro i acc; rfl
  | succ f ihf =>
      intro i acc
      simp only [buildTopoFuel]
      by_cases hmem : i ∈ acc.1
      · simp [hmem]
      · simp only [hmem, if_false]
        rw [hp i]
        have hfold : ∀ (l : List Nat) (ac : List Nat × List Nat),
            l.foldl (fun a c => buildTopoFuel s f c a) ac
              = l.foldl (fun a c => buildTopoFuel t f c a) ac := by
          intro l
          induction l with
          | nil => intro ac; rfl
          | cons c l ihl =>
              intro ac
              simp only [List.foldl_cons]
              rw [ihf c ac]
              exact ihl _
        rw [hfold]

theorem createTopoNet_eqButGrad {s t : St} (h : eqButGrad s t) (L : Nat) :
    createTopoNet s L = createTopoNet t L := by
  unfold createTopoNet reversedCopy
  rw [h.1, buildTopoFuel_shape_congr (fun j => (h.2 j).2.1)]

theorem node_ext {m n : Node} (h1 : m.data = n.data) (h2 : m.grad = n.grad)
    (h3 : m.prev = n.prev) (h4 : m.op = n.op) (h5 : m.label = n.label)
    (h6 : m.bwd = n.bwd) : m = n := by
  cases m
  cases n
  simp_all

theorem st_ext {s t : St} (hlen : s.length = t.length)
    (h : ∀ j, getNode s j = getNode t j) : s = t := by
  apply List.ext_getElem hlen
  intro i h1 h2
  have hh := h i
  rw [getNode_eq, getNode_eq, List.getElem?_eq_getElem h1,
    List.getElem?_eq_getElem h2] at hh
  simpa using hh

theorem foldl_setGrad_node :
    ∀ (L : List Nat) (S : St) (j : Nat), j ∈ L → j < S.length →
      getNode (L.foldl (fun s n => setGrad s n 0) S) j
        = { getNode S j with grad := 0 } := by
  intro L
  induction L with
  | nil => intro S j hj _; exact absurd hj (List.not_mem_nil j)
  | cons x L ihl =>
      intro S j hj hlen
      simp only [List.foldl_cons]
      by_cases hmem : j ∈ L
      · rw [ihl _ j hmem (by rw [length_setGrad]; exact hlen)]
        obtain ⟨d, p, o, l, b⟩ := getNode_setGrad_shape S x j 0
        exact node_ext d rfl p o l b
      · have hjx : j = x := by
          rcases List.mem_cons.mp hj with h | h
          · exact h
          · exact absurd h hmem
        subst hjx
        rw [foldl_setGrad_frame L _ j hmem, getNode_setGrad_self 0 hlen]

/-- Claim C4: `run_backward` is idempotent — running it twice from the same
terminal on an unmodified graph produces exactly the same arena (hence
identical gradients in every node), because each run first resets every
reachable gradient to zero. -/
theorem claimC4_idempotent {st : St} (hWf : Wf st) {t : Nat}
    (ht : t < st.length) :
    fullBackward (fullBackward st t) t = fullBackward st t := by
  obtain ⟨hnd, htm, hle, hreach, hcomp, hhead, hpos⟩ := topo_spec hWf ht
  have hsh : eqButGrad st (fullBackward st t) := eqButGrad_fullBackward st t
  have hlen : (fullBackward st t).length = st.length := hsh.1.symm
  have hL : createTopoNet (fullBackward st t) t = createTopoNet st t :=
    createTopoNet_eqButGrad (eqButGrad_symm hsh) t
  have hS0 : setGrad ((createTopoNet st t).foldl (fun s n => setGrad s n 0)
        (fullBackward st t)) t 1
      = setGrad ((createTopoNet st t).foldl (fun s n => setGrad s n 0) st) t 1 := by
    have hR : (createTopoNet st t).foldl (fun s n => setGrad s n 0) (fullBackward st t)
        = (createTopoNet st t).foldl (fun s n => setGrad s n 0) st := by
      apply st_ext
      · rw [length_foldl_setGrad, length_foldl_setGrad, hlen]
      · intro j
        by_cases hj : j ∈ createTopoNet st t
        · have hjlen : j < st.length := Nat.lt_of_le_of_lt (hle j hj) ht
          rw [foldl_setGrad_node _ _ j hj (by rw [hlen]; exact hjlen),
            foldl_setGrad_node _ _ j hj hjlen]
          obtain ⟨d, p, o, l, b⟩ := hsh.2 j
          exact node_ext d.symm rfl p.symm o.symm l.symm b.symm
        · rw [foldl_setGrad_frame _ _ j hj, foldl_setGrad_frame _ _ j hj]
          exact fullBackward_topo_frame hWf ht hj
    rw [hR]
  show (createTopoNet (fullBackward st t) t).foldl (fun s n => backwardStep s n)
      (setGrad ((createTopoNet (fullBackward st t) t).foldl
        (fun s n => setGrad s n 0) (fullBackward st t)) t 1)
    = fullBackward st t
  rw [hL, hS0]
  rfl

/-- Witness for claim C4 at the concrete fan-out graph `out = a*a + a`. -/
theorem claimC4_witness :
    (Wf exSt ∧ exOut.2 < exSt.length) ∧
    fullBackward (fullBackward exSt exOut.2) exOut.2 = fullBackward exSt exOut.2 :=
  ⟨⟨by decide, by decide⟩, claimC4_idempotent (by decide) (by decide)⟩

/-! ### Claim C10: neuron output -/

theorem data_setLabel (st : St) (i : Nat) (l : String) (j : Nat) :
    (getNode (setLabel st i l) j).data = (getNode st j).data := by
  by_cases h : i = j
  · subst h
    by_cases hl : i < st.length
    · rw [setLabel, getNode_set_self hl]
    · rw [setLabel, List.set_eq_of_length_le (Nat.le_of_not_lt hl)]
  · rw [setLabel, getNode_set_ne h]

theorem zipWith_data_congr {s t : St} (ws ins : List Nat)
    (hw : ∀ w ∈ ws, getNode s w = getNode t w)
    (hx : ∀ x ∈ ins, getNode s x = getNode t x) :
    List.zipWith (fun w x => (getNode s w).data * (getNode s x).data) ws ins
      = List.zipWith (fun w x => (getNode t w).data * (getNode t x).data) ws ins := by
  induction ws generalizing ins with
  | nil => simp
  | cons w ws ihw =>
      cases ins with
      | nil => simp
      | cons x ins =>
          simp only [List.zipWith_cons_cons]
          rw [hw w (List.mem_cons_self w ws), hx x (List.mem_cons_self x ins),
            ihw ins (fun a ha => hw a (List.mem_cons_of_mem _ ha))
              (fun a ha => hx a (List.mem_cons_of_mem _ ha))]

theorem outLoop_none :
    ∀ (ws ins : List Nat) (st : St) (acc : Nat),
      ins.length < ws.length → outLoop st acc ws ins = none := by
  intro ws
  induction ws with
  | nil => intro ins st acc h; simp at h
  | cons w ws ihw =>
      intro ins st acc h
      cases ins with
      | nil => rfl
      | cons x ins =>
          simp only [outLoop]
          exact ihw ins _ _ (by simp at h; omega)

theorem outLoop_take :
    ∀ (ws ins : List Nat) (st : St) (acc : Nat),
      outLoop st acc ws ins = outLoop st acc ws (ins.take ws.length) := by
  intro ws
  induction ws with
  | nil => intro ins st acc; rfl
  | cons w ws ihw =>
      intro ins st acc
      cases ins with
      | nil => rfl
      | cons x ins =>
          simp only [List.take_succ_cons, outLoop]
          exact ihw ins _ _

theorem outLoop_spec :
    ∀ (ws ins : List Nat) (st : St) (acc : Nat),
      acc < st.length → (∀ w ∈ ws, w < st.length) → (∀ x ∈ ins, x < st.length) →
      ws.length ≤ ins.length →
      ∃ st2 r, outLoop st acc ws ins = some (st2, r) ∧
        st.length ≤ st2.length ∧ r < st2.length ∧
        (∀ j, j < st.length → getNode st2 j = getNode st j) ∧
        (getNode st2 r).data = (getNode st acc).data
          + (List.zipWith (fun w x => (getNode st w).data * (getNode st x).data)
              ws ins).sum := by
  intro ws
  induction ws with
  | nil =>
      intro ins st acc ha _ _ _
      exact ⟨st, acc, rfl, Nat.le_refl _, ha, fun j _ => rfl, by simp⟩
  | cons w ws ihw =>
      intro ins st acc ha hw hx hlen
      cases ins with
      | nil => simp at hlen
      | cons x ins =>
          have hwlt : w < st.length := hw w (List.mem_cons_self w ws)
          have hxlt : x < st.length := hx x (List.mem_cons_self x ins)
          simp only [outLoop]
          -- the two appended nodes
          have hm : (vmul st w x).2 = st.length := rfl
          have hlen1 : (vmul st w x).1.length = st.length + 1 := by simp [vmul]
          have hlen2 : (vadd (vmul st w x).1 acc (vmul st w x).2).1.length
              = st.length + 2 := by simp [vadd, vmul]
          have hacc2 : (vadd (vmul st w x).1 acc (vmul st w x).2).2
              = st.length + 1 := by
            simp [vadd, hlen1]
          have hframe1 : ∀ j, j < st.length →
              getNode (vadd (vmul st w x).1 acc (vmul st w x).2).1 j = getNode st j := by
            intro j hj
            show getNode ((vmul st w x).1 ++ _) j = getNode st j
            rw [getNode_append_left (by rw [hlen1]; omega)]
            exact getNode_append_left hj
          have hdacc : (getNode (vadd (vmul st w x).1 acc (vmul st w x).2).1
              (vadd (vmul st w x).1 acc (vmul st w x).2).2).data
              = (getNode st acc).data
                + (getNode st w).data * (getNode st x).data := by
            rw [hacc2]
            show (getNode ((vmul st w x).1 ++ [_]) (st.length + 1)).data = _
            rw [show st.length + 1 = (vmul st w x).1.length from hlen1.symm,
              getNode_append_singleton]
            show (getNode (vmul st w x).1 acc).data
                + (getNode (vmul st w x).1 (vmul st w x).2).data = _
            rw [hm]
            show (getNode (st ++ [_]) acc).data + (getNode (st ++ [_]) st.length).data = _
            rw [getNode_append_left ha, getNode_append_singleton]
          obtain ⟨st2, r, heq, hle2, hr, hfr, hdata⟩ :=
            ihw ins (vadd (vmul st w x).1 acc (vmul st w x).2).1
              (vadd (vmul st w x).1 acc (vmul st w x).2).2
              (by rw [hacc2, hlen2]; omega)
              (fun a hamem => by
                rw [hlen2]
                exact Nat.lt_trans (hw a (List.mem_cons_of_mem _ hamem)) (by omega))
              (fun a hamem => by
                rw [hlen2]
                exact Nat.lt_trans (hx a (List.mem_cons_of_mem _ hamem)) (by omega))
              (by simp at hlen; omega)
          refine ⟨st2, r, heq, by rw [hlen2] at hle2; omega, hr, ?_, ?_⟩
          · intro j hj
            rw [hfr j (by rw [hlen2]; omega)]
            exact hframe1 j hj
          · rw [hdata, hdacc]
            have hzip : List.zipWith (fun a b =>
                (getNode (vadd (vmul st w x).1 acc (vmul st w x).2).1 a).data
                  * (getNode (vadd (vmul st w x).1 acc (vmul st w x).2).1 b).data) ws ins
                = List.zipWith (fun a b => (getNode st a).data * (getNode st b).data)
                    ws ins := by
              apply zipWith_data_congr
              · intro a hamem
                exact hframe1 a (hw a (List.mem_cons_of_mem _ hamem))
              · intro a hamem
                exact hframe1 a (hx a (List.mem_cons_of_mem _ hamem))
            rw [hzip]
            simp only [List.zipWith_cons_cons, List.sum_cons]
            ring

/-- Claim C10: `Neuron.Output` with at least as many inputs as weights reads
exactly the first `len(Weights)` inputs and returns a node whose value is
`tanh(Bias.value + Σ Weights[i].value * inputs[i].value)`; with fewer inputs
than weights the input indexing fails (modelled as `none`) — no validation is
performed. -/
theorem claimC10_neuron_output (tanhF : ℚ → ℚ) (st : St) (n : Neuron)
    (ins : List Nat) (hb : n.bias < st.length)
    (hw : ∀ w ∈ n.weights, w < st.length) (hx : ∀ x ∈ ins, x < st.length) :
    (n.weights.length ≤ ins.length →
      ∃ st2 o, neuronOutput tanhF st n ins = some (st2, o) ∧
        (getNode st2 o).data
          = tanhF ((getNode st n.bias).data
              + (List.zipWith (fun w x => (getNode st w).data * (getNode st x).data)
                  n.weights ins).sum)) ∧
    (ins.length < n.weights.length → neuronOutput tanhF st n ins = none) ∧
    neuronOutput tanhF st n ins = neuronOutput tanhF st n (ins.take n.weights.length) := by
  refine ⟨?_, ?_, ?_⟩
  · intro hlen
    obtain ⟨st1, raw, heq, hle1, hraw, hfr, hdata⟩ :=
      outLoop_spec n.weights ins st n.bias hb hw hx hlen
    refine ⟨setLabel (vtanh tanhF (setLabel st1 raw "neuron_raw_output") raw).1
        (vtanh tanhF (setLabel st1 raw "neuron_raw_output") raw).2 "neuron_output",
      (vtanh tanhF (setLabel st1 raw "neuron_raw_output") raw).2, ?_, ?_⟩
    · unfold neuronOutput
      rw [heq]
    · rw [data_setLabel]
      show (getNode ((setLabel st1 raw "neuron_raw_output") ++ [_])
          (setLabel st1 raw "neuron_raw_output").length).data = _
      rw [getNode_append_singleton]
      show tanhF (getNode (setLabel st1 raw "neuron_raw_output") raw).data = _
      rw [show (getNode (setLabel st1 raw "neuron_raw_output") raw).data
          = (getNode st1 raw).data from data_setLabel st1 raw _ raw]
      rw [hdata]
  · intro hlt
    unfold neuronOutput
    rw [outLoop_none n.weights ins st n.bias hlt]
  · unfold neuronOutput
    rw [outLoop_take n.weights ins st n.bias]

/-- Witness arena for claim C10: bias node 0 (value 1), weight node 1
(value 2), input node 2 (value 3). -/
def exC10st : St :=
  [⟨1, 0, [], "", "b", BackKind.noneB⟩,
   ⟨2, 0, [], "", "w1", BackKind.noneB⟩,
   ⟨3, 0, [], "", "x1", BackKind.noneB⟩]

/-- Witness for claim C10 with `tanh` interpreted as the identity function:
the hypotheses hold and the conclusion follows at the concrete neuron. -/
theorem claimC10_witness :
    ((⟨[1], 0⟩ : Neuron).bias < exC10st.length ∧
      (∀ w ∈ (⟨[1], 0⟩ : Neuron).weights, w < exC10st.length) ∧
      (∀ x ∈ [2], x < exC10st.length)) ∧
    (((⟨[1], 0⟩ : Neuron).weights.length ≤ ([2] : List Nat).length →
      ∃ st2 o, neuronOutput id exC10st ⟨[1], 0⟩ [2] = some (st2, o) ∧
        (getNode st2 o).data
          = id ((getNode exC10st (⟨[1], 0⟩ : Neuron).bias).data
              + (List.zipWith (fun w x => (getNode exC10st w).data
                  * (getNode exC10st x).data) (⟨[1], 0⟩ : Neuron).weights [2]).sum)) ∧
     (([2] : List Nat).length < (⟨[1], 0⟩ : Neuron).weights.length →
        neuronOutput id exC10st ⟨[1], 0⟩ [2] = none) ∧
     neuronOutput id exC10st ⟨[1], 0⟩ [2]
        = neuronOutput id exC10st ⟨[1], 0⟩
            (([2] : List Nat).take (⟨[1], 0⟩ : Neuron).weights.length)) :=
  ⟨⟨by decide, by decide, by decide⟩,
    claimC10_neuron_output id exC10st ⟨[1], 0⟩ [2] (by decide) (by decide) (by decide)⟩

/-! ### Claim C5: sub/div by composition vs the direct rules -/

theorem set_append_len (xs : List Node) (x y : Node) :
    (xs ++ [x]).set xs.length y = xs ++ [y] := by
  induction xs with
  | nil => rfl
  | cons h t ih =>
      show h :: (t ++ [x]).set t.length y = h :: (t ++ [y])
      rw [ih]

theorem reachb_agree {s t : St} (hWs : Wf s) {m : Nat}
    (hag : ∀ k, k < m → getNode s k = getNode t k) :
    ∀ f i j, i < m → reachb s f i j = reachb t f i j := by
  intro f
  induction f with
  | zero => intro i j _; rfl
  | succ f ihf =>
      intro i j hi
      simp only [reachb]
      rw [show (getNode t i).prev = (getNode s i).prev from by rw [hag i hi]]
      have h : ∀ c ∈ (getNode s i).prev, reachb s f c j = reachb t f c j := by
        intro c hc
        exact ihf c j (Nat.lt_of_lt_of_le (wf_prev_lt hWs c hc) (Nat.le_of_lt hi))
      rw [any_fun_congr _ h]

theorem reachable_agree {s t : St} (hWs : Wf s) {m : Nat}
    (hag : ∀ k, k < m → getNode s k = getNode t k) {i : Nat} (hi : i < m)
    (j : Nat) : Reachable s i j ↔ Reachable t i j := by
  unfold Reachable
  rw [reachb_agree hWs hag (i + 1) i j hi]

theorem derivFuel_agree {s t : St} (hWs : Wf s) {m : Nat}
    (hag : ∀ k, k < m → getNode s k = getNode t k) :
    ∀ f i j, i < m → derivFuel s f i j = derivFuel t f i j := by
  intro f
  induction f with
  | zero => intro i j _; rfl
  | succ f ihf =>
      intro i j hi
      simp only [derivFuel]
      by_cases hij : i = j
      · simp [hij]
      · simp only [hij, if_false]
        have hlw : localWeights s i = localWeights t i := by
          apply localWeights_eq_of
          · rw [hag i hi]
          · rw [hag i hi]
          · rw [hag i hi]
          · intro c hc
            rw [hag c (Nat.lt_of_lt_of_le (wf_prev_lt hWs c hc) (Nat.le_of_lt hi))]
        rw [← hlw]
        have h : ∀ cw ∈ localWeights s i,
            cw.2 * derivFuel s f cw.1 j = cw.2 * derivFuel t f cw.1 j := by
          intro cw hcw
          have hc := localWeights_mem_prev s i cw hcw
          have hci : cw.1 < i := wf_prev_lt hWs cw.1 hc
          rw [ihf cw.1 j (by omega)]
        rw [List.map_congr_left h]

theorem pathDeriv_agree {s t : St} (hWs : Wf s) {m : Nat}
    (hag : ∀ k, k < m → getNode s k = getNode t k) {i : Nat} (hi : i < m)
    (j : Nat) : pathDeriv s i j = pathDeriv t i j :=
  derivFuel_agree hWs hag (i + 1) i j hi

theorem powf_neg_one (x : ℚ) : powf x (-1) = 1 / x := by
  unfold powf
  rw [show ((-1 : ℚ)).num = -((1 : ℕ) : Int) from by decide]
  rw [zpow_neg, zpow_natCast, pow_one, one_div]

theorem powf_neg_two (x : ℚ) : powf x (-2) = 1 / (x * x) := by
  unfold powf
  rw [show ((-2 : ℚ)).num = -((2 : ℕ) : Int) from by decide]
  rw [zpow_neg, zpow_natCast, pow_two, one_div]

theorem vsub_state (st : St) (a b : Nat) (ha : a < st.length) (hb : b < st.length) :
    vsub st a b
      = (st ++ [⟨-1, 0, [], "", "", BackKind.noneB⟩,
          ⟨(getNode st b).data * -1, 0, [b, st.length], "*",
            "-" ++ (getNode st b).label, BackKind.mulB⟩,
          ⟨(getNode st a).data + (getNode st b).data * -1, 0,
            [a, st.length + 1], "-", "", BackKind.addB⟩],
        st.length + 2) := by
  have hbN : b < (st ++ [(⟨-1, 0, [], "", "", BackKind.noneB⟩ : Node)]).length := by
    rw [List.length_append, List.length_cons, List.length_nil]
    omega
  have e1 : vmul (st ++ [(⟨-1, 0, [], "", "", BackKind.noneB⟩ : Node)]) b st.length
      = ((st ++ [(⟨-1, 0, [], "", "", BackKind.noneB⟩ : Node)])
          ++ [⟨(getNode st b).data * -1, 0, [b, st.length], "*", "", BackKind.mulB⟩],
        st.length + 1) := by
    unfold vmul
    rw [getNode_append_left hb, getNode_append_singleton st]
    simp
  have e2 : setLabel ((st ++ [(⟨-1, 0, [], "", "", BackKind.noneB⟩ : Node)])
        ++ [⟨(getNode st b).data * -1, 0, [b, st.length], "*", "", BackKind.mulB⟩])
        (st.length + 1) ("-" ++ (getNode st b).label)
      = (st ++ [(⟨-1, 0, [], "", "", BackKind.noneB⟩ : Node)])
          ++ [⟨(getNode st b).data * -1, 0, [b, st.length], "*",
              "-" ++ (getNode st b).label, BackKind.mulB⟩] := by
    unfold setLabel
    rw [show st.length + 1
        = (st ++ [(⟨-1, 0, [], "", "", BackKind.noneB⟩ : Node)]).length from by simp]
    rw [getNode_append_singleton]
    dsimp only
    rw [set_append_len]
  have e3 : vadd ((st ++ [(⟨-1, 0, [], "", "", BackKind.noneB⟩ : Node)])
        ++ [⟨(getNode st b).data * -1, 0, [b, st.length], "*",
            "-" ++ (getNode st b).label, BackKind.mulB⟩]) a (st.length + 1)
      = (((st ++ [(⟨-1, 0, [], "", "", BackKind.noneB⟩ : Node)])
          ++ [⟨(getNode st b).data * -1, 0, [b, st.length], "*",
              "-" ++ (getNode st b).label, BackKind.mulB⟩])
          ++ [⟨(getNode st a).data + (getNode st b).data * -1, 0,
              [a, st.length + 1], "+", "", BackKind.addB⟩],
        st.length + 2) := by
    unfold vadd
    rw [getNode_append_left (show a
        < (st ++ [(⟨-1, 0, [], "", "", BackKind.noneB⟩ : Node)]).length from by
      rw [List.length_append, List.length_cons, List.length_nil]; omega)]
    rw [getNode_append_left ha]
    rw [show st.length + 1
        = (st ++ [(⟨-1, 0, [], "", "", BackKind.noneB⟩ : Node)]).length from by simp]
    rw [getNode_append_singleton]
    simp
  have e4 : setOp (((st ++ [(⟨-1, 0, [], "", "", BackKind.noneB⟩ : Node)])
        ++ [⟨(getNode st b).data * -1, 0, [b, st.length], "*",
            "-" ++ (getNode st b).label, BackKind.mulB⟩])
        ++ [⟨(getNode st a).data + (getNode st b).data * -1, 0,
            [a, st.length + 1], "+", "", BackKind.addB⟩]) (st.length + 2) "-"
      = ((st ++ [(⟨-1, 0, [], "", "", BackKind.noneB⟩ : Node)])
          ++ [⟨(getNode st b).data * -1, 0, [b, st.length], "*",
              "-" ++ (getNode st b).label, BackKind.mulB⟩])
          ++ [⟨(getNode st a).data + (getNode st b).data * -1, 0,
              [a, st.length + 1], "-", "", BackKind.addB⟩] := by
    unfold setOp
    rw [show st.length + 2
        = ((st ++ [(⟨-1, 0, [], "", "", BackKind.noneB⟩ : Node)])
            ++ [(⟨(getNode st b).data * -1, 0, [b, st.length], "*",
                "-" ++ (getNode st b).label, BackKind.mulB⟩ : Node)]).length from by simp]
    rw [getNode_append_singleton]
    dsimp only
    rw [set_append_len]
  have e5 : setLabel (((st ++ [(⟨-1, 0, [], "", "", BackKind.noneB⟩ : Node)])
        ++ [⟨(getNode st b).data * -1, 0, [b, st.length], "*",
            "-" ++ (getNode st b).label, BackKind.mulB⟩])
        ++ [⟨(getNode st a).data + (getNode st b).data * -1, 0,
            [a, st.length + 1], "-", "", BackKind.addB⟩]) (st.length + 2) ""
      = ((st ++ [(⟨-1, 0, [], "", "", BackKind.noneB⟩ : Node)])
          ++ [⟨(getNode st b).data * -1, 0, [b, st.length], "*",
              "-" ++ (getNode st b).label, BackKind.mulB⟩])
          ++ [⟨(getNode st a).data + (getNode st b).data * -1, 0,
              [a, st.length + 1], "-", "", BackKind.addB⟩] := by
    unfold setLabel
    rw [show st.length + 2
        = ((st ++ [(⟨-1, 0, [], "", "", BackKind.noneB⟩ : Node)])
            ++ [(⟨(getNode st b).data * -1, 0, [b, st.length], "*",
                "-" ++ (getNode st b).label, BackKind.mulB⟩ : Node)]).length from by simp]
    rw [getNode_append_singleton]
    dsimp only
    rw [set_append_len]
  unfold vsub
  dsimp only
  rw [show newValue st (-1) ""
      = (st ++ [(⟨-1, 0, [], "", "", BackKind.noneB⟩ : Node)], st.length) from rfl]
  dsimp only
  rw [e1]
  dsimp only
  rw [getNode_append_left hbN, getNode_append_left hb]
  rw [e2, e3]
  dsimp only
  rw [e4, e5]
  simp [List.append_assoc]

theorem vdiv_state (st : St) (a b : Nat) (ha : a < st.length) (hb : b < st.length) :
    vdiv st a b
      = (st ++ [⟨powf (getNode st b).data (-1), 0, [b], "**" ++ toString (-1 : ℚ),
            "1/" ++ (getNode st b).label, BackKind.powB (-1)⟩,
          ⟨(getNode st a).data * powf (getNode st b).data (-1), 0,
            [a, st.length], "/", "", BackKind.mulB⟩],
        st.length + 1) := by
  have e2 : setLabel (st ++ [(⟨powf (getNode st b).data (-1), 0, [b],
        "**" ++ toString (-1 : ℚ), "", BackKind.powB (-1)⟩ : Node)]) st.length
        ("1/" ++ (getNode st b).label)
      = st ++ [⟨powf (getNode st b).data (-1), 0, [b], "**" ++ toString (-1 : ℚ),
          "1/" ++ (getNode st b).label, BackKind.powB (-1)⟩] := by
    unfold setLabel
    rw [getNode_append_singleton]
    dsimp only
    rw [set_append_len]
  have e3 : vmul (st ++ [(⟨powf (getNode st b).data (-1), 0, [b],
        "**" ++ toString (-1 : ℚ), "1/" ++ (getNode st b).label,
        BackKind.powB (-1)⟩ : Node)]) a st.length
      = ((st ++ [(⟨powf (getNode st b).data (-1), 0, [b],
            "**" ++ toString (-1 : ℚ), "1/" ++ (getNode st b).label,
            BackKind.powB (-1)⟩ : Node)])
          ++ [⟨(getNode st a).data * powf (getNode st b).data (-1), 0,
              [a, st.length], "*", "", BackKind.mulB⟩],
        st.length + 1) := by
    unfold vmul
    rw [getNode_append_left ha, getNode_append_singleton st]
    simp
  have e4 : setOp ((st ++ [(⟨powf (getNode st b).data (-1), 0, [b],
        "**" ++ toString (-1 : ℚ), "1/" ++ (getNode st b).label,
        BackKind.powB (-1)⟩ : Node)])
        ++ [⟨(getNode st a).data * powf (getNode st b).data (-1), 0,
            [a, st.length], "*", "", BackKind.mulB⟩]) (st.length + 1) "/"
      = (st ++ [(⟨powf (getNode st b).data (-1), 0, [b],
            "**" ++ toString (-1 : ℚ), "1/" ++ (getNode st b).label,
            BackKind.powB (-1)⟩ : Node)])
          ++ [⟨(getNode st a).data * powf (getNode st b).data (-1), 0,
              [a, st.length], "/", "", BackKind.mulB⟩] := by
    unfold setOp
    rw [show st.length + 1
        = (st ++ [(⟨powf (getNode st b).data (-1), 0, [b],
            "**" ++ toString (-1 : ℚ), "1/" ++ (getNode st b).label,
            BackKind.powB (-1)⟩ : Node)]).length from by simp]
    rw [getNode_append_singleton]
    dsimp only
    rw [set_append_len]
  have e5 : setLabel ((st ++ [(⟨powf (getNode st b).data (-1), 0, [b],
        "**" ++ toString (-1 : ℚ), "1/" ++ (getNode st b).label,
        BackKind.powB (-1)⟩ : Node)])
        ++ [⟨(getNode st a).data * powf (getNode st b).data (-1), 0,
            [a, st.length], "/", "", BackKind.mulB⟩]) (st.length + 1) ""
      = (st ++ [(⟨powf (getNode st b).data (-1), 0, [b],
            "**" ++ toString (-1 : ℚ), "1/" ++ (getNode st b).label,
            BackKind.powB (-1)⟩ : Node)])
          ++ [⟨(getNode st a).data * powf (getNode st b).data (-1), 0,
              [a, st.length], "/", "", BackKind.mulB⟩] := by
    unfold setLabel
    rw [show st.length + 1
        = (st ++ [(⟨powf (getNode st b).data (-1), 0, [b],
            "**" ++ toString (-1 : ℚ), "1/" ++ (getNode st b).label,
            BackKind.powB (-1)⟩ : Node)]).length from by simp]
    rw [getNode_append_singleton]
    dsimp only
    rw [set_append_len]
  unfold vdiv
  dsimp only
  rw [show vpow st b (-1)
      = (st ++ [(⟨powf (getNode st b).data (-1), 0, [b],
          "**" ++ toString (-1 : ℚ), "", BackKind.powB (-1)⟩ : Node)],
        st.length) from rfl]
  dsimp only
  rw [getNode_append_left hb]
  rw [e2, e3]
  dsimp only
  rw [e4, e5]
  simp [List.append_assoc]
/-- Claim C5: `Sub` is `a.Add(b.Mul(NewValue(-1)))` and `Div` is
`a.Mul(b.Pow(-1))`, and for every pair of existing nodes `a`, `b` the
gradients these compositions leave in the pre-existing nodes after
`run_backward` are numerically identical to the ones the direct rules
(`a.grad += out.grad; b.grad -= out.grad` for subtraction and the quotient
rule for division) would produce. -/
theorem claimC5_refinement (st : St) (hWf : Wf st) (a b : Nat)
    (ha : a < st.length) (hb : b < st.length) :
    (∀ j, j < st.length →
      (getNode (fullBackward (vsub st a b).1 (vsub st a b).2) j).grad
        = (getNode (fullBackward (vsubDirect st a b).1 (vsubDirect st a b).2) j).grad) ∧
    (∀ j, j < st.length →
      (getNode (fullBackward (vdiv st a b).1 (vdiv st a b).2) j).grad
        = (getNode (fullBackward (vdivDirect st a b).1 (vdivDirect st a b).2) j).grad) := by
  refine ⟨?_, ?_⟩
  · -- subtraction
    rw [vsub_state st a b ha hb]
    rw [show vsubDirect st a b
        = (st ++ [(⟨(getNode st a).data - (getNode st b).data, 0, [a, b], "-", "",
            BackKind.subB⟩ : Node)], st.length) from rfl]
    dsimp only
    set E := st ++ [(⟨-1, 0, [], "", "", BackKind.noneB⟩ : Node),
      ⟨(getNode st b).data * -1, 0, [b, st.length], "*",
        "-" ++ (getNode st b).label, BackKind.mulB⟩,
      ⟨(getNode st a).data + (getNode st b).data * -1, 0,
        [a, st.length + 1], "-", "", BackKind.addB⟩] with hE
    set D := st ++ [(⟨(getNode st a).data - (getNode st b).data, 0, [a, b], "-", "",
      BackKind.subB⟩ : Node)] with hD
    have hlenE : E.length = st.length + 3 := by rw [hE]; simp
    have hlenD : D.length = st.length + 1 := by rw [hD]; simp
    have hN : getNode E st.length = ⟨-1, 0, [], "", "", BackKind.noneB⟩ := by
      rw [hE, getNode_append_right (Nat.le_refl _)]
      simp [getNode]
    have hM : getNode E (st.length + 1)
        = ⟨(getNode st b).data * -1, 0, [b, st.length], "*",
            "-" ++ (getNode st b).label, BackKind.mulB⟩ := by
      rw [hE, getNode_append_right (by omega)]
      rw [show st.length + 1 - st.length = 1 from by omega]
      simp [getNode]
    have hA : getNode E (st.length + 2)
        = ⟨(getNode st a).data + (getNode st b).data * -1, 0,
            [a, st.length + 1], "-", "", BackKind.addB⟩ := by
      rw [hE, getNode_append_right (by omega)]
      rw [show st.length + 2 - st.length = 2 from by omega]
      simp [getNode]
    have hDn : getNode D st.length
        = ⟨(getNode st a).data - (getNode st b).data, 0, [a, b], "-", "",
            BackKind.subB⟩ := by
      rw [hD]
      exact getNode_append_singleton st _
    have hagE : ∀ k, k < st.length → getNode E k = getNode st k := by
      intro k hk
      rw [hE]
      exact getNode_append_left hk
    have hagD : ∀ k, k < st.length → getNode D k = getNode st k := by
      intro k hk
      rw [hD]
      exact getNode_append_left hk
    have hWfE : Wf E := by
      intro i hi c hc
      rw [hlenE] at hi
      by_cases h1 : i < st.length
      · rw [hagE i h1] at hc
        exact hWf i h1 c hc
      · have h2 : i = st.length ∨ i = st.length + 1 ∨ i = st.length + 2 := by omega
        rcases h2 with rfl | rfl | rfl
        · rw [hN] at hc
          exact absurd hc (List.not_mem_nil c)
        · rw [hM] at hc
          simp at hc
          rcases hc with rfl | rfl <;> omega
        · rw [hA] at hc
          simp at hc
          rcases hc with rfl | rfl <;> omega
    have hWfD : Wf D := by
      intro i hi c hc
      rw [hlenD] at hi
      by_cases h1 : i < st.length
      · rw [hagD i h1] at hc
        exact hWf i h1 c hc
      · have h2 : i = st.length := by omega
        subst h2
        rw [hDn] at hc
        simp at hc
        rcases hc with rfl | rfl <;> omega
    have hlwA : localWeights E (st.length + 2) = [(a, (1 : ℚ)), (st.length + 1, 1)] :=
      localWeights_addB (by rw [hA]) (by rw [hA])
    have hlwM : localWeights E (st.length + 1)
        = [(b, (-1 : ℚ)), (st.length, (getNode st b).data)] := by
      rw [localWeights_mulB (by rw [hM]) (by rw [hM]), hN, hagE b hb]
    have hlwD : localWeights D st.length = [(a, (1 : ℚ)), (b, -1)] :=
      localWeights_subB (by rw [hDn]) (by rw [hDn])
    have hPS : ∀ j, j < st.length →
        pathDeriv E (st.length + 2) j = pathDeriv st a j - pathDeriv st b j := by
      intro j hj
      rw [pathDeriv_firstEdge hWfE, hlwA]
      simp only [List.map_cons, List.map_nil, List.sum_cons, List.sum_nil]
      rw [pathDeriv_firstEdge hWfE (st.length + 1) j, hlwM]
      simp only [List.map_cons, List.map_nil, List.sum_cons, List.sum_nil]
      rw [@pathDeriv_leaf E hWfE st.length (by rw [hN]) j]
      rw [if_neg (show ¬(st.length + 2 = j) from by omega),
        if_neg (show ¬(st.length + 1 = j) from by omega),
        if_neg (show ¬(st.length = j) from by omega)]
      rw [pathDeriv_agree hWfE hagE ha j, pathDeriv_agree hWfE hagE hb j]
      ring
    have hPD : ∀ j, j < st.length →
        pathDeriv D st.length j = pathDeriv st a j - pathDeriv st b j := by
      intro j hj
      rw [pathDeriv_firstEdge hWfD, hlwD]
      simp only [List.map_cons, List.map_nil, List.sum_cons, List.sum_nil]
      rw [if_neg (show ¬(st.length = j) from by omega)]
      rw [pathDeriv_agree hWfD hagD ha j, pathDeriv_agree hWfD hagD hb j]
      ring
    have hRS : ∀ j, j < st.length →
        (Reachable E (st.length + 2) j ↔ (Reachable st a j ∨ Reachable st b j)) := by
      intro j hj
      constructor
      · intro h
        rcases reachable_elim hWfE h with he | ⟨c, hc, hcr⟩
        · omega
        · rw [hA] at hc
          simp at hc
          rcases hc with rfl | rfl
          · exact Or.inl ((reachable_agree hWfE hagE ha j).mp hcr)
          · rcases reachable_elim hWfE hcr with he | ⟨c2, hc2, hc2r⟩
            · omega
            · rw [hM] at hc2
              simp at hc2
              rcases hc2 with rfl | rfl
              · exact Or.inr ((reachable_agree hWfE hagE hb j).mp hc2r)
              · rcases reachable_elim hWfE hc2r with he | ⟨c3, hc3, hc3r⟩
                · omega
                · rw [hN] at hc3
                  exact absurd hc3 (List.not_mem_nil c3)
      · intro h
        rcases h with h | h
        · exact reachable_step hWfE
            (show a ∈ (getNode E (st.length + 2)).prev from by rw [hA]; simp)
            ((reachable_agree hWfE hagE ha j).mpr h)
        · exact reachable_step hWfE
            (show st.length + 1 ∈ (getNode E (st.length + 2)).prev from by
              rw [hA]; simp)
            (reachable_step hWfE
              (show b ∈ (getNode E (st.length + 1)).prev from by rw [hM]; simp)
              ((reachable_agree hWfE hagE hb j).mpr h))
    have hRD : ∀ j, j < st.length →
        (Reachable D st.length j ↔ (Reachable st a j ∨ Reachable st b j)) := by
      intro j hj
      constructor
      · intro h
        rcases reachable_elim hWfD h with he | ⟨c, hc, hcr⟩
        · omega
        · rw [hDn] at hc
          simp at hc
          rcases hc with rfl | rfl
          · exact Or.inl ((reachable_agree hWfD hagD ha j).mp hcr)
          · exact Or.inr ((reachable_agree hWfD hagD hb j).mp hcr)
      · intro h
        rcases h with h | h
        · exact reachable_step hWfD
            (show a ∈ (getNode D st.length).prev from by rw [hDn]; simp)
            ((reachable_agree hWfD hagD ha j).mpr h)
        · exact reachable_step hWfD
            (show b ∈ (getNode D st.length).prev from by rw [hDn]; simp)
            ((reachable_agree hWfD hagD hb j).mpr h)
    intro j hj
    by_cases hre : Reachable st a j ∨ Reachable st b j
    · rw [fullBackward_pathDeriv hWfE
          (show st.length + 2 < E.length from by rw [hlenE]; omega)
          ((hRS j hj).mpr hre),
        fullBackward_pathDeriv hWfD
          (show st.length < D.length from by rw [hlenD]; omega)
          ((hRD j hj).mpr hre)]
      rw [hPS j hj, hPD j hj]
    · have hnS : ¬ Reachable E (st.length + 2) j := fun h => hre ((hRS j hj).mp h)
      have hnD : ¬ Reachable D st.length j := fun h => hre ((hRD j hj).mp h)
      obtain ⟨-, -, -, hrc1, -, -, -⟩ := topo_spec hWfE
        (show st.length + 2 < E.length from by rw [hlenE]; omega)
      obtain ⟨-, -, -, hrc2, -, -, -⟩ := topo_spec hWfD
        (show st.length < D.length from by rw [hlenD]; omega)
      rw [fullBackward_topo_frame hWfE
          (show st.length + 2 < E.length from by rw [hlenE]; omega)
          (fun hin => hnS (hrc1 j hin)),
        fullBackward_topo_frame hWfD
          (show st.length < D.length from by rw [hlenD]; omega)
          (fun hin => hnD (hrc2 j hin)),
        hagE j hj, hagD j hj]
  · -- division
    rw [vdiv_state st a b ha hb]
    rw [show vdivDirect st a b
        = (st ++ [(⟨(getNode st a).data / (getNode st b).data, 0, [a, b], "/", "",
            BackKind.divB⟩ : Node)], st.length) from rfl]
    dsimp only
    set E := st ++ [(⟨powf (getNode st b).data (-1), 0, [b],
      "**" ++ toString (-1 : ℚ), "1/" ++ (getNode st b).label,
      BackKind.powB (-1)⟩ : Node),
      ⟨(getNode st a).data * powf (getNode st b).data (-1), 0,
        [a, st.length], "/", "", BackKind.mulB⟩] with hE
    set D := st ++ [(⟨(getNode st a).data / (getNode st b).data, 0, [a, b], "/", "",
      BackKind.divB⟩ : Node)] with hD
    have hlenE : E.length = st.length + 2 := by rw [hE]; simp
    have hlenD : D.length = st.length + 1 := by rw [hD]; simp
    have hP : getNode E st.length
        = ⟨powf (getNode st b).data (-1), 0, [b], "**" ++ toString (-1 : ℚ),
            "1/" ++ (getNode st b).label, BackKind.powB (-1)⟩ := by
      rw [hE, getNode_append_right (Nat.le_refl _)]
      simp [getNode]
    have hMV : getNode E (st.length + 1)
        = ⟨(getNode st a).data * powf (getNode st b).data (-1), 0,
            [a, st.length], "/", "", BackKind.mulB⟩ := by
      rw [hE, getNode_append_right (by omega)]
      rw [show st.length + 1 - st.length = 1 from by omega]
      simp [getNode]
    have hDn : getNode D st.length
        = ⟨(getNode st a).data / (getNode st b).data, 0, [a, b], "/", "",
            BackKind.divB⟩ := by
      rw [hD]
      exact getNode_append_singleton st _
    have hagE : ∀ k, k < st.length → getNode E k = getNode st k := by
      intro k hk
      rw [hE]
      exact getNode_append_left hk
    have hagD : ∀ k, k < st.length → getNode D k = getNode st k := by
      intro k hk
      rw [hD]
      exact getNode_append_left hk
    have hWfE : Wf E := by
      intro i hi c hc
      rw [hlenE] at hi
      by_cases h1 : i < st.length
      · rw [hagE i h1] at hc
        exact hWf i h1 c hc
      · have h2 : i = st.length ∨ i = st.length + 1 := by omega
        rcases h2 with rfl | rfl
        · rw [hP] at hc
          simp at hc
          subst hc
          omega
        · rw [hMV] at hc
          simp at hc
          rcases hc with rfl | rfl <;> omega
    have hWfD : Wf D := by
      intro i hi c hc
      rw [hlenD] at hi
      by_cases h1 : i < st.length
      · rw [hagD i h1] at hc
        exact hWf i h1 c hc
      · have h2 : i = st.length := by omega
        subst h2
        rw [hDn] at hc
        simp at hc
        rcases hc with rfl | rfl <;> omega
    have hlwMV : localWeights E (st.length + 1)
        = [(a, powf (getNode st b).data (-1)), (st.length, (getNode st a).data)] := by
      rw [localWeights_mulB (by rw [hMV]) (by rw [hMV]), hP, hagE a ha]
    have hlwP : localWeights E st.length
        = [(b, (-1 : ℚ) * powf (getNode st b).data ((-1 : ℚ) - 1))] := by
      rw [localWeights_powB (by rw [hP]) (by rw [hP]), hagE b hb]
    have hlwD : localWeights D st.length
        = [(a, 1 / (getNode st b).data),
           (b, -((getNode st a).data / ((getNode st b).data * (getNode st b).data)))] := by
      rw [localWeights_divB (by rw [hDn]) (by rw [hDn]), hagD a ha, hagD b hb]
    have hPV : ∀ j, j < st.length →
        pathDeriv E (st.length + 1) j
          = (1 / (getNode st b).data) * pathDeriv st a j
            - ((getNode st a).data / ((getNode st b).data * (getNode st b).data))
              * pathDeriv st b j := by
      intro j hj
      rw [pathDeriv_firstEdge hWfE, hlwMV]
      simp only [List.map_cons, List.map_nil, List.sum_cons, List.sum_nil]
      rw [pathDeriv_firstEdge hWfE st.length j, hlwP]
      simp only [List.map_cons, List.map_nil, List.sum_cons, List.sum_nil]
      rw [if_neg (show ¬(st.length + 1 = j) from by omega),
        if_neg (show ¬(st.length = j) from by omega)]
      rw [pathDeriv_agree hWfE hagE ha j, pathDeriv_agree hWfE hagE hb j]
      rw [show ((-1 : ℚ) - 1) = -2 from by norm_num, powf_neg_one, powf_neg_two]
      ring
    have hPW : ∀ j, j < st.length →
        pathDeriv D st.length j
          = (1 / (getNode st b).data) * pathDeriv st a j
            - ((getNode st a).data / ((getNode st b).data * (getNode st b).data))
              * pathDeriv st b j := by
      intro j hj
      rw [pathDeriv_firstEdge hWfD, hlwD]
      simp only [List.map_cons, List.map_nil, List.sum_cons, List.sum_nil]
      rw [if_neg (show ¬(st.length = j) from by omega)]
      rw [pathDeriv_agree hWfD hagD ha j, pathDeriv_agree hWfD hagD hb j]
      ring
    have hRV : ∀ j, j < st.length →
        (Reachable E (st.length + 1) j ↔ (Reachable st a j ∨ Reachable st b j)) := by
      intro j hj
      constructor
      · intro h
        rcases reachable_elim hWfE h with he | ⟨c, hc, hcr⟩
        · omega
        · rw [hMV] at hc
          simp at hc
          rcases hc with rfl | rfl
          · exact Or.inl ((reachable_agree hWfE hagE ha j).mp hcr)
          · rcases reachable_elim hWfE hcr with he | ⟨c2, hc2, hc2r⟩
            · omega
            · rw [hP] at hc2
              simp at hc2
              subst hc2
              exact Or.inr ((reachable_agree hWfE hagE hb j).mp hc2r)
      · intro h
        rcases h with h | h
        · exact reachable_step hWfE
            (show a ∈ (getNode E (st.length + 1)).prev from by rw [hMV]; simp)
            ((reachable_agree hWfE hagE ha j).mpr h)
        · exact reachable_step hWfE
            (show st.length ∈ (getNode E (st.length + 1)).prev from by
              rw [hMV]; simp)
            (reachable_step hWfE
              (show b ∈ (getNode E st.length).prev from by rw [hP]; simp)
              ((reachable_agree hWfE hagE hb j).mpr h))
    have hRW : ∀ j, j < st.length →
        (Reachable D st.length j ↔ (Reachable st a j ∨ Reachable st b j)) := by
      intro j hj
      constructor
      · intro h
        rcases reachable_elim hWfD h with he | ⟨c, hc, hcr⟩
        · omega
        · rw [hDn] at hc
          simp at hc
          rcases hc with rfl | rfl
          · exact Or.inl ((reachable_agree hWfD hagD ha j).mp hcr)
          · exact Or.inr ((reachable_agree hWfD hagD hb j).mp hcr)
      · intro h
        rcases h with h | h
        · exact reachable_step hWfD
            (show a ∈ (getNode D st.length).prev from by rw [hDn]; simp)
            ((reachable_agree hWfD hagD ha j).mpr h)
        · exact reachable_step hWfD
            (show b ∈ (getNode D st.length).prev from by rw [hDn]; simp)
            ((reachable_agree hWfD hagD hb j).mpr h)
    intro j hj
    by_cases hre : Reachable st a j ∨ Reachable st b j
    · rw [fullBackward_pathDeriv hWfE
          (show st.length + 1 < E.length from by rw [hlenE]; omega)
          ((hRV j hj).mpr hre),
        fullBackward_pathDeriv hWfD
          (show st.length < D.length from by rw [hlenD]; omega)
          ((hRW j hj).mpr hre)]
      rw [hPV j hj, hPW j hj]
    · have hnS : ¬ Reachable E (st.length + 1) j := fun h => hre ((hRV j hj).mp h)
      have hnD : ¬ Reachable D st.length j := fun h => hre ((hRW j hj).mp h)
      obtain ⟨-, -, -, hrc1, -, -, -⟩ := topo_spec hWfE
        (show st.length + 1 < E.length from by rw [hlenE]; omega)
      obtain ⟨-, -, -, hrc2, -, -, -⟩ := topo_spec hWfD
        (show st.length < D.length from by rw [hlenD]; omega)
      rw [fullBackward_topo_frame hWfE
          (show st.length + 1 < E.length from by rw [hlenE]; omega)
          (fun hin => hnS (hrc1 j hin)),
        fullBackward_topo_frame hWfD
          (show st.length < D.length from by rw [hlenD]; omega)
          (fun hin => hnD (hrc2 j hin)),
        hagE j hj, hagD j hj]

/-- Witness arena for claim C5: two leaves with values 3 and 4. -/
def exC5st : St :=
  [⟨3, 0, [], "", "a", BackKind.noneB⟩,
   ⟨4, 0, [], "", "b", BackKind.noneB⟩]

/-- Witness for claim C5: the hypotheses hold and the conclusion follows at
the concrete two-leaf arena with `a` at index 0 and `b` at index 1. -/
theorem claimC5_witness :
    (Wf exC5st ∧ 0 < exC5st.length ∧ 1 < exC5st.length) ∧
    ((∀ j, j < exC5st.length →
      (getNode (fullBackward (vsub exC5st 0 1).1 (vsub exC5st 0 1).2) j).grad
        = (getNode (fullBackward (vsubDirect exC5st 0 1).1
            (vsubDirect exC5st 0 1).2) j).grad) ∧
     (∀ j, j < exC5st.length →
      (getNode (fullBackward (vdiv exC5st 0 1).1 (vdiv exC5st 0 1).2) j).grad
        = (getNode (fullBackward (vdivDirect exC5st 0 1).1
            (vdivDirect exC5st 0 1).2) j).grad)) :=
  ⟨⟨by decide, by decide, by decide⟩,
    claimC5_refinement exC5st (by decide) 0 1 (by decide) (by decide)⟩

end NeuralNet
